import Mathlib

/-!
Verification of the GeekCMS plugin-sequence resolver
(geekcms/sequence_analyze.py) via a shallow embedding in Lean.

The embedding translates the operations of the classes SequenceParser and
the internal algorithm class of sequence_analyze.py.  Python builtins are
modelled as follows:

* Python integers are Int, list as List, dict as an association list kept in
  insertion order with unique keys (matching CPython dict semantics).
* The builtin hash on plugin identities is abstracted as a parameter
  h : PluginIndex -> Int.  Within one process hash is a fixed function of the
  identity value (PluginIndex is a value type), but its concrete values are
  seed dependent, so every operation that observes hashes takes h explicitly.
* Python sets of identities are modelled as duplicate-free lists; iteration
  order of a CPython set is a function of the element hashes, which we model
  by enumerating the set in ascending h order (py_sort_by_hash).  set.pop()
  is modelled by py_min: an element with least hash value.
* sorted(..., key=...) is a stable sort; we model it with a stable insertion
  sort (py_sort) parameterised by a strict "stays before" test.
* Raising an exception is modelled with Except; a raised error aborts the
  call and yields no result.
-/

/-- Sentinel operand standing for a missing left operand.  The class
constant PluginExpr.HEAD lives in geekcms/parser/utils.py which is not part
of the sources; modelled from the spec as a distinguished marker string. -/
def PluginExprHEAD : String := "HEAD"

/-- Sentinel operand standing for a missing right operand, see
PluginExprHEAD. -/
def PluginExprTAIL : String := "TAIL"

/-- Relation attached to an expression: direction flag plus integer degree
(PluginRel of geekcms/parser/utils.py, modelled from the spec: a mutable
pair of a direction flag and a degree). -/
structure PluginRel where
  is_left_rel : Bool
  degree : Int
deriving DecidableEq, Repr

/-- Relation expression (PluginExpr of geekcms/parser/utils.py, modelled
from the spec): left operand, right operand and an optional relation.  The
operand type is a parameter: String before qualification, PluginIndex
afterwards.  Equality is value equality. -/
structure PluginExpr (A : Type) where
  left_operand : A
  right_operand : A
  relation : Option PluginRel
deriving DecidableEq, Repr

/-- Fully qualified plugin identity (PluginIndex of geekcms/protocol.py,
modelled from the spec: a namedtuple of theme name and plugin name, value
equality; the sentinels carry no theme, encoded as none). -/
structure PluginIndex where
  theme_name : Option String
  plugin_name : String
deriving DecidableEq, Repr

/-- Degree used for the pairwise edges produced by the chain builder
(_SPECIAL_DEGREE in sequence_analyze.py). -/
def SPECIAL_DEGREE : Int := -1

/-- The relation object shared by all emitted pairwise edges
(special_rel in _Algorithm._break_relation_group). -/
def special_rel : PluginRel := { is_left_rel := true, degree := SPECIAL_DEGREE }

/-- Strict lexicographic comparison of Python pairs of integers, used for
the sort keys (hash value, degree). -/
def lexLt (p q : Int × Int) : Bool :=
  decide (p.1 < q.1) || (decide (p.1 = q.1) && decide (p.2 < q.2))

/-- Insert x into a list; an element y already in the list stays in front
of x exactly when stays y x holds.  Building a sort on this insertion with
a strict comparison reproduces the stable order of Python sorted. -/
def insort {A : Type} (stays : A → A → Bool) (x : A) : List A → List A
  | [] => [x]
  | y :: ys => if stays y x then y :: insort stays x ys else x :: y :: ys

/-- Stable insertion sort modelling Python sorted: elements are consumed
from the right, so an element inserted later (earlier in the original list)
lands in front of elements with an equal key. -/
def py_sort {A : Type} (stays : A → A → Bool) : List A → List A
  | [] => []
  | x :: xs => insort stays x (py_sort stays xs)

/-- Degree of the relation of an expression.  After the removal of the
unconstrained expressions every expression reaching a sort carries a
relation, so the fallback value for a missing relation is never observed
by the pipeline. -/
def rel_degree (e : PluginExpr PluginIndex) : Int :=
  match e.relation with
  | some r => r.degree
  | none => 0

/-- Sort of _generate_left_relation_group: ascending in the key
(hash of the left operand, degree), stable. -/
def sort_left (h : PluginIndex → Int) (exprs : List (PluginExpr PluginIndex)) :
    List (PluginExpr PluginIndex) :=
  py_sort (fun y x => lexLt (h y.left_operand, rel_degree y) (h x.left_operand, rel_degree x)) exprs

/-- Sort of _generate_right_relation_group: descending in the key
(hash of the right operand, degree), stable (sorted with reverse=True). -/
def sort_right (h : PluginIndex → Int) (exprs : List (PluginExpr PluginIndex)) :
    List (PluginExpr PluginIndex) :=
  py_sort (fun y x => lexLt (h x.right_operand, rel_degree x) (h y.right_operand, rel_degree y)) exprs

/-- Enumeration of a Python set of identities: CPython iterates a set in an
order that is a function of the element hashes; we model it as ascending
hash order (stable for equal hash values). -/
def py_sort_by_hash (h : PluginIndex → Int) (xs : List PluginIndex) : List PluginIndex :=
  py_sort (fun y x => decide (h y < h x)) xs

/-- Model of set.pop(): an element whose hash value is least. -/
def py_min (h : PluginIndex → Int) (xs : List PluginIndex) : Option PluginIndex :=
  (py_sort_by_hash h xs).head?

/-- One step of _Algorithm._remove_irrelevant_exprs: the loop walks a copy
of the expression list and removes from the working list (and archives)
every expression whose relation is absent; list.remove deletes the first
occurrence that compares equal. -/
def remove_irrelevant_step (st : List (PluginExpr PluginIndex) × List (PluginExpr PluginIndex))
    (e : PluginExpr PluginIndex) :
    List (PluginExpr PluginIndex) × List (PluginExpr PluginIndex) :=
  if e.relation.isNone then (st.1.erase e, st.2 ++ [e]) else st

/-- _Algorithm._remove_irrelevant_exprs: returns the remaining working list
together with the removed (unconstrained) expressions. -/
def remove_irrelevant_exprs (exprs : List (PluginExpr PluginIndex)) :
    List (PluginExpr PluginIndex) × List (PluginExpr PluginIndex) :=
  exprs.foldl remove_irrelevant_step (exprs, [])

/-- _Algorithm._transform_to_left_rel: every expression whose relation is in
reverse direction has its operands exchanged and the direction flag set.
Expressions without a relation never reach this step; they are returned
unchanged. -/
def transform_to_left_rel (exprs : List (PluginExpr PluginIndex)) :
    List (PluginExpr PluginIndex) :=
  exprs.map fun e =>
    match e.relation with
    | some r =>
        if r.is_left_rel then e
        else { left_operand := e.right_operand, right_operand := e.left_operand,
               relation := some { is_left_rel := true, degree := r.degree } }
    | none => e

/-- _Algorithm._yield_group, fuel-indexed: pops maximal runs of expressions
whose get value equals the one of the first element of the run.  The loop
consumes at least one element per group, so any fuel of at least the list
length makes the recursion structural (see yield_group_fuel_adequate). -/
def yield_group_fuel (get : PluginExpr PluginIndex → PluginIndex) :
    Nat → List (PluginExpr PluginIndex) → List (List (PluginExpr PluginIndex))
  | _, [] => []
  | 0, _ :: _ => []
  | fuel + 1, x :: xs =>
      (x :: xs.takeWhile (fun e => get e == get x)) ::
        yield_group_fuel get fuel (xs.dropWhile (fun e => get e == get x))

/-- _Algorithm._yield_group on a sorted list: splits it into the runs of
expressions sharing the grouping operand. -/
def yield_group (get : PluginExpr PluginIndex → PluginIndex)
    (sorted_exprs : List (PluginExpr PluginIndex)) : List (List (PluginExpr PluginIndex)) :=
  yield_group_fuel get sorted_exprs.length sorted_exprs

/-- _Algorithm._break_relation_group: translate one relation group into a
chain of pairwise edges over the gathered operands, plus the edge of the
special member (the first member for left groups, inserted in front; the
last member for right groups, appended). -/
def break_relation_group (gather : PluginExpr PluginIndex → PluginIndex) (special_at_end : Bool)
    (group : List (PluginExpr PluginIndex)) : List (PluginExpr PluginIndex) :=
  match group with
  | [] => []
  | g0 :: rest =>
      let new_group := ((g0 :: rest).zip rest).map fun p =>
        { left_operand := gather p.1, right_operand := gather p.2,
          relation := some special_rel : PluginExpr PluginIndex }
      let se := if special_at_end then (g0 :: rest).getLast (List.cons_ne_nil g0 rest) else g0
      let ne : PluginExpr PluginIndex :=
        { left_operand := se.left_operand, right_operand := se.right_operand,
          relation := some special_rel }
      if special_at_end then new_group ++ [ne] else ne :: new_group

/-- _Algorithm._break_left_relation_group: gather the right operands, the
special member is the first one. -/
def break_left_relation_group (group : List (PluginExpr PluginIndex)) :
    List (PluginExpr PluginIndex) :=
  break_relation_group (fun e => e.right_operand) false group

/-- _Algorithm._break_right_relation_group: gather the left operands, the
special member is the last one. -/
def break_right_relation_group (group : List (PluginExpr PluginIndex)) :
    List (PluginExpr PluginIndex) :=
  break_relation_group (fun e => e.left_operand) true group

/-- The pairwise relations emitted by both grouping passes of
_Algorithm.generate_sequence over the normalized working list: first all
broken left groups, then all broken right groups. -/
def relations_of (h : PluginIndex → Int) (work : List (PluginExpr PluginIndex)) :
    List (PluginExpr PluginIndex) :=
  ((yield_group (fun e => e.left_operand) (sort_left h work)).map
      break_left_relation_group).flatten
    ++ ((yield_group (fun e => e.right_operand) (sort_right h work)).map
      break_right_relation_group).flatten

/-- Insertion into a Python set: a no-op when the element is present. -/
def insert_once (xs : List PluginIndex) (a : PluginIndex) : List PluginIndex :=
  if a ∈ xs then xs else xs ++ [a]

/-- A Python set built from an enumeration (set comprehension). -/
def set_of (xs : List PluginIndex) : List PluginIndex :=
  xs.foldl insert_once []

/-- defaultdict(list) access-and-append: left_hand_side[left].append(right)
in _generate_execution_order. -/
def lhs_add (m : List (PluginIndex × List PluginIndex)) (k v : PluginIndex) :
    List (PluginIndex × List PluginIndex) :=
  match List.lookup k m with
  | some vs => m.map fun kv => if kv.1 = k then (k, vs ++ [v]) else kv
  | none => m ++ [(k, [v])]

/-- defaultdict(int) increment: right_hand_side[right] += 1. -/
def rhs_add (m : List (PluginIndex × Int)) (k : PluginIndex) : List (PluginIndex × Int) :=
  match List.lookup k m with
  | some c => m.map fun kv => if kv.1 = k then (k, c + 1) else kv
  | none => m ++ [(k, 1)]

/-- The decrement step of the elimination loop:
right_hand_side[right_op] -= 1, and the entry is deleted when the stored
count reaches zero (a missing key would be created with value -1 by the
defaultdict and then kept; the invariant proofs show this never happens). -/
def rhs_decr (m : List (PluginIndex × Int)) (k : PluginIndex) : List (PluginIndex × Int) :=
  match List.lookup k m with
  | some c => if c - 1 = 0 then m.filter (fun kv => decide (kv.1 ≠ k))
              else m.map fun kv => if kv.1 = k then (k, c - 1) else kv
  | none => m ++ [(k, -1)]

/-- The residual state carried by the ordering error of
_generate_execution_order: Python formats the two remaining dicts into the
SyntaxError message; we keep them structurally, which is what "naming the
unresolved residual set" amounts to. -/
structure OrderingError where
  lhs : List (PluginIndex × List PluginIndex)
  rhs : List (PluginIndex × Int)
deriving DecidableEq, Repr

/-- The while loop of _generate_execution_order, fuel-indexed: every
iteration deletes one key from left_hand_side, so any fuel of at least the
number of keys makes the recursion structural (see kahn_fuel_adequate).
Each round takes the keys of left_hand_side that are not keys of
right_hand_side; an empty such set is the ordering error; otherwise the
popped item is appended to the order, the counts of its successors are
decremented and its entry is deleted. -/
def kahn_fuel (h : PluginIndex → Int) :
    Nat → List (PluginIndex × List PluginIndex) → List (PluginIndex × Int) →
      List PluginIndex → Except OrderingError (List PluginIndex)
  | _, [], _, order => .ok order
  | 0, kv :: lhs_rest, rhs, _ => .error ⟨kv :: lhs_rest, rhs⟩
  | fuel + 1, kv :: lhs_rest, rhs, order =>
      let lhs := kv :: lhs_rest
      let uniq := (lhs.map Prod.fst).filter fun k => decide (k ∉ rhs.map Prod.fst)
      match py_min h uniq with
      | none => .error ⟨lhs, rhs⟩
      | some item =>
          let succs := (List.lookup item lhs).getD []
          let rhs2 := succs.foldl rhs_decr rhs
          kahn_fuel h fuel (lhs.filter fun kv2 => decide (kv2.1 ≠ item)) rhs2 (order ++ [item])

/-- The while loop of _generate_execution_order with its exact fuel. -/
def kahn (h : PluginIndex → Int) (lhs : List (PluginIndex × List PluginIndex))
    (rhs : List (PluginIndex × Int)) (order : List PluginIndex) :
    Except OrderingError (List PluginIndex) :=
  kahn_fuel h lhs.length lhs rhs order

/-- Test of the final sentinel removal: the identity has no theme and its
name is one of the two sentinel markers. -/
def is_sentinel (i : PluginIndex) : Bool :=
  i.theme_name.isNone && (i.plugin_name == PluginExprHEAD || i.plugin_name == PluginExprTAIL)

/-- The sentinel removal at the end of _generate_execution_order: the loop
walks a copy of the order and removes (first occurrence that compares
equal) every sentinel entry. -/
def strip_head_tail (order : List PluginIndex) : List PluginIndex :=
  order.foldl (fun cur i => if is_sentinel i then cur.erase i else cur) order

/-- The successor map of _generate_execution_order: the loop over the
relations fills left_hand_side by appending every right operand under its
left operand. -/
def build_lhs (relations : List (PluginExpr PluginIndex)) :
    List (PluginIndex × List PluginIndex) :=
  relations.foldl (fun m e => lhs_add m e.left_operand e.right_operand) []

/-- The reference-count map of _generate_execution_order: the same loop
counts every right operand. -/
def build_rhs (relations : List (PluginExpr PluginIndex)) : List (PluginIndex × Int) :=
  relations.foldl (fun m e => rhs_add m e.right_operand) []

/-- The left-behind set of _generate_execution_order: seeded with the left
operands of the unconstrained expressions, then united with the identities
that appear only in right_hand_side. -/
def left_behind_of (relations : List (PluginExpr PluginIndex))
    (irrelevant_exprs : List (PluginExpr PluginIndex)) : List PluginIndex :=
  (((build_rhs relations).map Prod.fst).filter fun k =>
      decide (k ∉ (build_lhs relations).map Prod.fst)).foldl insert_once
    (set_of (irrelevant_exprs.map fun e => e.left_operand))

/-- _Algorithm._generate_execution_order: build the successor map and the
reference counts from the relations, seed the left-behind set with the left
operands of the unconstrained expressions and the pure successors, run the
elimination loop, append the left-behind set (in set iteration order) and
strip the sentinels. -/
def generate_execution_order (h : PluginIndex → Int)
    (relations : List (PluginExpr PluginIndex))
    (irrelevant_exprs : List (PluginExpr PluginIndex)) :
    Except OrderingError (List PluginIndex) :=
  match kahn h (build_lhs relations) (build_rhs relations) [] with
  | .error err => .error err
  | .ok order =>
      .ok (strip_head_tail (order ++ py_sort_by_hash h (left_behind_of relations irrelevant_exprs)))

/-- The merged edge set handed to the elimination loop for a batch of
qualified expressions: normalization (removal of unconstrained expressions,
direction transformation) followed by both grouping passes. -/
def merged_relations (h : PluginIndex → Int) (exprs : List (PluginExpr PluginIndex)) :
    List (PluginExpr PluginIndex) :=
  relations_of h (transform_to_left_rel (remove_irrelevant_exprs exprs).1)

/-- _Algorithm.generate_sequence on the concatenated batch of qualified
expressions. -/
def generate_sequence (h : PluginIndex → Int) (exprs : List (PluginExpr PluginIndex)) :
    Except OrderingError (List PluginIndex) :=
  generate_execution_order h (merged_relations h exprs) (remove_irrelevant_exprs exprs).2

/-- Splitting a list of characters at every dot, modelling
str.split with separator dot: the empty string yields one empty part, and
every dot starts a new part. -/
def split_dots (l : List Char) : List (List Char) :=
  l.foldr (fun c acc =>
    if c == '.' then [] :: acc
    else match acc with
      | [] => [[c]]
      | g :: gs => (c :: g) :: gs) [[]]

/-- The helper get_theme_plugin of SequenceParser._replace_with_plugin_index:
sentinel operands stay unqualified; a bare name is qualified with the theme
of the directive text; a dotted name is an explicit theme and plugin pair;
more than one dot raises the operand SyntaxError. -/
def get_theme_plugin (theme operand : String) :
    Except String (Option String × String) :=
  if operand = PluginExprHEAD ∨ operand = PluginExprTAIL then
    .ok (none, operand)
  else
    match split_dots operand.data with
    | [_] => .ok (some theme, operand)
    | [t, p] => .ok (some (String.mk t), String.mk p)
    | _ => .error ("Operand Error: " ++ operand)

/-- SequenceParser._replace_with_plugin_index: qualify both operands of
every expression of one namespace, left before right, first raised error
aborting the whole call. -/
def replace_with_plugin_index (theme : String) :
    List (PluginExpr String) → Except String (List (PluginExpr PluginIndex))
  | [] => .ok []
  | e :: rest => do
      let lp ← get_theme_plugin theme e.left_operand
      let rp ← get_theme_plugin theme e.right_operand
      let rest2 ← replace_with_plugin_index theme rest
      .ok ({ left_operand := ⟨lp.1, lp.2⟩, right_operand := ⟨rp.1, rp.2⟩,
             relation := e.relation } :: rest2)

/-- Modelled from the spec: the PLY lexer and parser live in
geekcms/parser/simple_lex.py and simple_yacc.py, which are not part of the
sources.  Per the spec they turn one namespace text into a list of raw
expressions while recording recovery diagnostics in the process-wide
ErrorCollector; we abstract one parse call as its outcome: the expression
list plus the two error flags the collector would carry afterwards. -/
structure ParseResult where
  exprs : List (PluginExpr String)
  lex_error : Bool
  yacc_error : Bool

/-- The state of a SequenceParser object: the had-errors flag and the
namespace-keyed mapping of qualified expression lists. -/
structure ParserState where
  error : Bool
  theme_plugin_expr_mapping : List (String × List (PluginExpr PluginIndex))

/-- The message of the NameError raised by SequenceParser._archive_error:
the method body reads a variable named theme, but no such name is bound in
its scope (it is neither a parameter nor a module level name), so Python
raises NameError the moment either error flag is set. -/
def name_error_msg : String := "NameError: name theme is not defined"

/-- SequenceParser._archive_error: with a lexical or syntax error flagged,
the had-errors attribute is set and then the unbound name theme is
evaluated, raising NameError; with no flag set the state is unchanged. -/
def archive_error (lex_err yacc_err error : Bool) : Except String Bool :=
  if lex_err then .error name_error_msg
  else if yacc_err then .error name_error_msg
  else .ok error

/-- Python dict assignment d[k] = v: an existing key keeps its position and
gets the new value, a new key is appended. -/
def dict_set {B : Type} (m : List (String × B)) (k : String) (v : B) :
    List (String × B) :=
  if k ∈ m.map Prod.fst then m.map (fun kv => if kv.1 = k then (k, v) else kv)
  else m ++ [(k, v)]

/-- SequenceParser.analyze: parse the namespace text (abstracted as the
ParseResult), archive errors, qualify the expressions, store them under the
namespace key.  A raised error aborts the call before the store. -/
def analyze (theme : String) (pr : ParseResult) (st : ParserState) :
    Except String ParserState := do
  let err ← archive_error pr.lex_error pr.yacc_error st.error
  let processed ← replace_with_plugin_index theme pr.exprs
  .ok { error := err, theme_plugin_expr_mapping :=
          dict_set st.theme_plugin_expr_mapping theme processed }

/-- Edge reading of a list of pairwise relations: x strictly precedes y. -/
def HasEdge (edges : List (PluginExpr PluginIndex)) (x y : PluginIndex) : Prop :=
  ∃ e ∈ edges, e.left_operand = x ∧ e.right_operand = y

/-- A relation R on identities has a cycle: a nonempty chain that returns
to its start. -/
def HasCycleRel (R : PluginIndex → PluginIndex → Prop) : Prop :=
  ∃ x p, List.Chain R x p ∧ R ((x :: p).getLast (List.cons_ne_nil x p)) x

/-- The edge list has a cycle. -/
def HasCycleIn (edges : List (PluginExpr PluginIndex)) : Prop :=
  HasCycleRel (HasEdge edges)

/-- Edge reading of the successor map: x precedes y when y occurs in the
successor list stored under x. -/
def EdgeOf (lhs : List (PluginIndex × List PluginIndex)) (x y : PluginIndex) : Prop :=
  ∃ kv ∈ lhs, kv.1 = x ∧ y ∈ kv.2

/-- Total number of incoming edges of y recorded in the successor map. -/
def countsOf (lhs : List (PluginIndex × List PluginIndex)) (y : PluginIndex) : Nat :=
  (lhs.map fun kv => kv.2.count y).sum

/-- The reference-count map rhs faithfully represents the in-degree
function f: keys are unique, a key is present exactly when its count is
positive, and every stored count is the in-degree. -/
def Models (rhs : List (PluginIndex × Int)) (f : PluginIndex → Nat) : Prop :=
  (rhs.map Prod.fst).Nodup
    ∧ (∀ k, k ∈ rhs.map Prod.fst ↔ 0 < f k)
    ∧ (∀ kv ∈ rhs, kv.2 = (f kv.1 : Int))

/-- The identities a successful run can return: every operand of a
constrained expression plus the left operand of every unconstrained one,
sentinels removed. -/
def after_set (exprs : List (PluginExpr PluginIndex)) : List PluginIndex :=
  (((exprs.filter fun e => e.relation.isSome).map fun e => e.left_operand)
      ++ ((exprs.filter fun e => e.relation.isSome).map fun e => e.right_operand)
      ++ ((exprs.filter fun e => e.relation.isNone).map fun e => e.left_operand)).filter
    fun i => !is_sentinel i

/-- An operand string the qualifier rejects: not a sentinel and containing
more than one dot. -/
def BadOperand (s : String) : Prop :=
  ¬(s = PluginExprHEAD ∨ s = PluginExprTAIL) ∧ 2 < (split_dots s.data).length

/-- A concrete hash function used for closed evaluations: every identity
hashes to zero. -/
def hzero : PluginIndex → Int := fun _ => 0

/-- Identity of plugin a in theme t. -/
def idx_a : PluginIndex := ⟨some "t", "a"⟩

/-- Identity of plugin b in theme t. -/
def idx_b : PluginIndex := ⟨some "t", "b"⟩

/-- The qualified TAIL sentinel. -/
def idx_tail : PluginIndex := ⟨none, PluginExprTAIL⟩

/-- Batch for the duplicate evaluation: a bare line naming a and the
directive a before b, both in theme t (qualified form). -/
def c1_batch : List (PluginExpr PluginIndex) :=
  [{ left_operand := idx_a, right_operand := idx_tail, relation := none },
   { left_operand := idx_a, right_operand := idx_b, relation := some ⟨true, 0⟩ }]

/-- Batch with a two-cycle: a before b and b before a in theme t. -/
def c2_batch : List (PluginExpr PluginIndex) :=
  [{ left_operand := idx_a, right_operand := idx_b, relation := some ⟨true, 0⟩ },
   { left_operand := idx_b, right_operand := idx_a, relation := some ⟨true, 0⟩ }]

/-- Batch of two bare, unconstrained lines naming a and b. -/
def c3_batch : List (PluginExpr PluginIndex) :=
  [{ left_operand := idx_a, right_operand := idx_tail, relation := none },
   { left_operand := idx_b, right_operand := idx_tail, relation := none }]

/-- A process hash ordering a below b. -/
def c3_h1 : PluginIndex → Int := fun i => if i = idx_a then 0 else 1

/-- A process hash ordering b below a. -/
def c3_h2 : PluginIndex → Int := fun i => if i = idx_a then 1 else 0

/-- Raw directives of Scenario A: loader_a before loader_b with degree 0
and loader_c before loader_b with degree 1, in namespace pre_load. -/
def c4_raw : List (PluginExpr String) :=
  [{ left_operand := "loader_a", right_operand := "loader_b", relation := some ⟨true, 0⟩ },
   { left_operand := "loader_c", right_operand := "loader_b", relation := some ⟨true, 1⟩ }]

/-- Identity of loader_a in namespace pre_load. -/
def idx_la : PluginIndex := ⟨some "pre_load", "loader_a"⟩

/-- Identity of loader_b in namespace pre_load. -/
def idx_lb : PluginIndex := ⟨some "pre_load", "loader_b"⟩

/-- Identity of loader_c in namespace pre_load. -/
def idx_lc : PluginIndex := ⟨some "pre_load", "loader_c"⟩

/-- Scenario A first directive after qualification: loader_a before
loader_b with degree 0. -/
def c4_e1 : PluginExpr PluginIndex :=
  { left_operand := idx_la, right_operand := idx_lb, relation := some ⟨true, 0⟩ }

/-- Scenario A second directive after qualification: loader_c before
loader_b with degree 1. -/
def c4_e2 : PluginExpr PluginIndex :=
  { left_operand := idx_lc, right_operand := idx_lb, relation := some ⟨true, 1⟩ }

/-- Scenario A batch after qualification. -/
def c4_batch : List (PluginExpr PluginIndex) := [c4_e1, c4_e2]

/-- A parse outcome carrying a lexical diagnostic. -/
def c6_pr : ParseResult := { exprs := [], lex_error := true, yacc_error := false }

/-- The empty parser state (fresh SequenceParser). -/
def st0 : ParserState := { error := false, theme_plugin_expr_mapping := [] }

/-- A well-formed raw expression: x before y. -/
def c7_good : PluginExpr String :=
  { left_operand := "x", right_operand := "y", relation := some ⟨true, 0⟩ }

/-- A raw expression whose left operand has two dots. -/
def c7_bad : PluginExpr String :=
  { left_operand := "a.b.c", right_operand := "y", relation := some ⟨true, 0⟩ }

/-- Parse outcome of a namespace holding one good and one bad expression,
no lexer or parser diagnostics. -/
def c7_pr : ParseResult := { exprs := [c7_good, c7_bad], lex_error := false, yacc_error := false }

/-- Clean parse outcome of a first analyze call on theme t. -/
def c10_pr1 : ParseResult :=
  { exprs := [{ left_operand := "a", right_operand := "b", relation := some ⟨true, 0⟩ }],
    lex_error := false, yacc_error := false }

/-- Clean parse outcome of a second analyze call on theme t. -/
def c10_pr2 : ParseResult :=
  { exprs := [{ left_operand := "c", right_operand := "d", relation := some ⟨true, 2⟩ }],
    lex_error := false, yacc_error := false }

/-- Batch with one sentinel-producing directive: a before TAIL (the
directive a with omitted right operand). -/
def c8_batch : List (PluginExpr PluginIndex) :=
  [{ left_operand := idx_a, right_operand := idx_tail, relation := some ⟨true, 0⟩ }]

/-- Batch with one reverse-direction expression: b after a with degree 5,
written right to left. -/
def c9_batch : List (PluginExpr PluginIndex) :=
  [{ left_operand := idx_b, right_operand := idx_a, relation := some ⟨false, 5⟩ }]

/-- x occurs as an operand of some expression of the list. -/
def OperandIn (l : List (PluginExpr PluginIndex)) (x : PluginIndex) : Prop :=
  ∃ e ∈ l, x = e.left_operand ∨ x = e.right_operand

theorem mem_insort {A : Type} (stays : A → A → Bool) (x a : A) (l : List A) :
    a ∈ insort stays x l ↔ a = x ∨ a ∈ l := by
  induction l with
  | nil => simp [insort]
  | cons y ys ih =>
      by_cases hst : stays y x
      · simp [insort, hst, ih]
        tauto
      · simp [insort, hst, ih]

theorem mem_py_sort {A : Type} (stays : A → A → Bool) (a : A) (l : List A) :
    a ∈ py_sort stays l ↔ a ∈ l := by
  induction l with
  | nil => simp [py_sort]
  | cons y ys ih => simp [py_sort, mem_insort, ih]

theorem insort_ne_nil {A : Type} (stays : A → A → Bool) (x : A) (l : List A) :
    insort stays x l ≠ [] := by
  cases l with
  | nil => simp [insort]
  | cons y ys =>
      simp only [insort]
      split <;> simp

theorem py_sort_eq_nil {A : Type} (stays : A → A → Bool) (l : List A) :
    py_sort stays l = [] ↔ l = [] := by
  cases l with
  | nil => simp [py_sort]
  | cons y ys =>
      simp only [py_sort]
      constructor
      · intro hc
        exact absurd hc (insort_ne_nil _ _ _)
      · intro hc
        exact absurd hc (List.cons_ne_nil _ _)

theorem py_min_mem (h : PluginIndex → Int) (xs : List PluginIndex) (m : PluginIndex) :
    py_min h xs = some m → m ∈ xs := by
  intro hm
  have hmem : m ∈ py_sort_by_hash h xs := by
    cases hs : py_sort_by_hash h xs with
    | nil => simp [py_min, hs] at hm
    | cons b bs =>
        simp [py_min, hs] at hm
        simp [hm]
  exact (mem_py_sort _ _ _).1 hmem

theorem py_min_eq_none (h : PluginIndex → Int) (xs : List PluginIndex) :
    py_min h xs = none ↔ xs = [] := by
  simp only [py_min, List.head?_eq_none_iff]
  exact py_sort_eq_nil _ _

theorem foldl_if_skip {A C : Type} (p : C → Bool) (f : A → C → A) (l : List C) (a : A) :
    l.foldl (fun acc x => if p x then f acc x else acc) a = (l.filter p).foldl f a := by
  induction l generalizing a with
  | nil => rfl
  | cons c cs ih =>
      by_cases hp : p c <;> simp [List.filter_cons, hp, ih]

theorem foldl_append_collect {C : Type} (p : C → Bool) (l : List C) (b : List C) :
    l.foldl (fun acc x => if p x then acc ++ [x] else acc) b = b ++ l.filter p := by
  induction l generalizing b with
  | nil => simp
  | cons c cs ih =>
      by_cases hp : p c <;> simp [List.filter_cons, hp, ih]

theorem erase_chunk {A : Type} [DecidableEq A] (p : A → Bool) (ys : List A) :
    ∀ cur : List A, (∀ x ∈ ys, p x = true) →
      (∀ x, p x = true → ys.count x = cur.count x) →
      ys.foldl (fun c x => c.erase x) cur = cur.filter (fun x => !p x) := by
  induction ys with
  | nil =>
      intro cur _ hcnt
      have : ∀ a ∈ cur, (!p a) = true := by
        intro a ha
        by_contra hpa
        have hp : p a = true := by
          cases hv : p a
          · rw [hv] at hpa
            simp at hpa
          · rfl
        have h0 := hcnt a hp
        simp at h0
        have h1 : cur.count a = 0 := h0.symm
        rw [List.count_eq_zero] at h1
        exact h1 ha
      simp [List.filter_eq_self.2 this]
  | cons y ys ih =>
      intro cur hall hcnt
      have hpy : p y = true := hall y (List.mem_cons_self y ys)
      have hycur : y ∈ cur := by
        have := hcnt y hpy
        rw [List.count_cons] at this
        simp at this
        have hpos : 0 < cur.count y := by omega
        exact List.count_pos_iff.1 hpos
      have hstep : (y :: ys).foldl (fun c x => c.erase x) cur
          = ys.foldl (fun c x => c.erase x) (cur.erase y) := rfl
      rw [hstep]
      rw [ih (cur.erase y) (fun x hx => hall x (List.mem_cons_of_mem y hx))]
      · obtain ⟨l1, l2, _, hsplit, herase⟩ := List.exists_erase_eq hycur
        rw [herase, hsplit, List.filter_append, List.filter_append, List.filter_cons]
        simp [hpy]
      · intro x hpx
        have hc := hcnt x hpx
        rw [List.count_cons] at hc
        by_cases hxy : x = y
        · subst hxy
          rw [List.count_erase_self]
          simp at hc
          omega
        · rw [List.count_erase_of_ne hxy]
          have : (y == x) = false := by
            simp
            exact fun he => hxy he.symm
          rw [this] at hc
          simpa using hc

theorem erase_fold {A : Type} [DecidableEq A] (p : A → Bool) (l : List A) :
    l.foldl (fun c x => if p x then c.erase x else c) l = l.filter (fun x => !p x) := by
  rw [foldl_if_skip p (fun c x => c.erase x) l l]
  apply erase_chunk
  · intro x hx
    exact (List.mem_filter.1 hx).2
  · intro x hpx
    exact List.count_filter hpx

theorem remove_fold_eq (l : List (PluginExpr PluginIndex))
    (cur irr : List (PluginExpr PluginIndex)) :
    l.foldl remove_irrelevant_step (cur, irr)
      = (l.foldl (fun c e => if e.relation.isNone then c.erase e else c) cur,
         irr ++ l.filter (fun e => e.relation.isNone)) := by
  induction l generalizing cur irr with
  | nil => simp
  | cons e es ih =>
      rw [List.foldl_cons, List.foldl_cons, List.filter_cons]
      by_cases hn : e.relation.isNone
      · rw [show remove_irrelevant_step (cur, irr) e = (cur.erase e, irr ++ [e]) by
          simp [remove_irrelevant_step, hn]]
        rw [ih]
        simp [hn]
      · rw [show remove_irrelevant_step (cur, irr) e = (cur, irr) by
          simp [remove_irrelevant_step, hn]]
        rw [ih]
        simp [hn]

theorem remove_eq_partition (exprs : List (PluginExpr PluginIndex)) :
    remove_irrelevant_exprs exprs
      = (exprs.filter (fun e => !e.relation.isNone),
         exprs.filter (fun e => e.relation.isNone)) := by
  rw [remove_irrelevant_exprs, remove_fold_eq]
  rw [erase_fold]
  simp

theorem strip_eq_filter (order : List PluginIndex) :
    strip_head_tail order = order.filter (fun i => !is_sentinel i) :=
  erase_fold _ _

theorem mem_foldl_insert_once (l : List PluginIndex) (acc : List PluginIndex)
    (x : PluginIndex) : x ∈ l.foldl insert_once acc ↔ x ∈ acc ∨ x ∈ l := by
  induction l generalizing acc with
  | nil => simp
  | cons a as ih =>
      simp only [List.foldl_cons, ih, insert_once]
      by_cases ha : a ∈ acc
      · simp only [ha, if_pos, List.mem_cons]
        constructor
        · tauto
        · rintro (hx | rfl | hx) <;> tauto
      · simp only [ha, if_neg, not_false_iff, List.mem_append, List.mem_singleton,
          List.mem_cons]
        tauto

theorem mem_set_of (l : List PluginIndex) (x : PluginIndex) :
    x ∈ set_of l ↔ x ∈ l := by
  simp [set_of, mem_foldl_insert_once]

theorem yield_group_fuel_flatten (get : PluginExpr PluginIndex → PluginIndex) :
    ∀ (fuel : Nat) (l : List (PluginExpr PluginIndex)), l.length ≤ fuel →
      (yield_group_fuel get fuel l).flatten = l := by
  intro fuel
  induction fuel with
  | zero =>
      intro l hl
      have : l = [] := by
        cases l with
        | nil => rfl
        | cons x xs => simp at hl
      subst this
      rfl
  | succ n ih =>
      intro l hl
      cases l with
      | nil => rfl
      | cons x xs =>
          simp only [yield_group_fuel, List.flatten_cons]
          rw [ih _ (le_trans ((List.dropWhile_sublist _).length_le) (by simpa using hl))]
          simp [List.takeWhile_append_dropWhile]

theorem yield_group_flatten (get : PluginExpr PluginIndex → PluginIndex)
    (l : List (PluginExpr PluginIndex)) : (yield_group get l).flatten = l :=
  yield_group_fuel_flatten get l.length l le_rfl

theorem yield_group_fuel_anchor (get : PluginExpr PluginIndex → PluginIndex) :
    ∀ (fuel : Nat) (l g : List (PluginExpr PluginIndex)), g ∈ yield_group_fuel get fuel l →
      ∃ x rest2, g = x :: rest2 ∧ ∀ e ∈ g, get e = get x := by
  intro fuel
  induction fuel with
  | zero =>
      intro l g hg
      cases l <;> simp [yield_group_fuel] at hg
  | succ n ih =>
      intro l g hg
      cases l with
      | nil => simp [yield_group_fuel] at hg
      | cons x xs =>
          simp only [yield_group_fuel, List.mem_cons] at hg
          rcases hg with hg | hg
          · refine ⟨x, _, hg, ?_⟩
            intro e he
            rw [hg] at he
            rcases List.mem_cons.1 he with rfl | he
            · rfl
            · have := List.mem_takeWhile_imp he
              simpa using this
          · exact ih _ g hg

theorem yield_group_anchor (get : PluginExpr PluginIndex → PluginIndex)
    (l g : List (PluginExpr PluginIndex)) (hg : g ∈ yield_group get l) :
    ∃ x rest2, g = x :: rest2 ∧ ∀ e ∈ g, get e = get x :=
  yield_group_fuel_anchor get l.length l g hg

theorem break_operand_sub (gather : PluginExpr PluginIndex → PluginIndex)
    (hg : ∀ e, gather e = e.left_operand ∨ gather e = e.right_operand)
    (b : Bool) (g : List (PluginExpr PluginIndex)) (x : PluginIndex) :
    OperandIn (break_relation_group gather b g) x → OperandIn g x := by
  intro hx
  obtain ⟨e2, he2, hside⟩ := hx
  cases g with
  | nil => simp [break_relation_group] at he2
  | cons g0 rest =>
      have hmem : e2 ∈ ((g0 :: rest).zip rest).map (fun p =>
            (⟨gather p.1, gather p.2, some special_rel⟩ : PluginExpr PluginIndex))
          ∨ ∃ se ∈ g0 :: rest,
              e2 = (⟨se.left_operand, se.right_operand, some special_rel⟩ :
                PluginExpr PluginIndex) := by
        simp only [break_relation_group] at he2
        cases b
        · simp only [Bool.false_eq_true, if_false, List.mem_cons] at he2
          rcases he2 with he2 | he2
          · exact Or.inr ⟨g0, List.mem_cons_self g0 rest, he2⟩
          · exact Or.inl he2
        · simp only [if_true, List.mem_append, List.mem_singleton] at he2
          rcases he2 with he2 | he2
          · exact Or.inl he2
          · exact Or.inr ⟨(g0 :: rest).getLast (List.cons_ne_nil g0 rest),
              List.getLast_mem _, he2⟩
      rcases hmem with hmem | ⟨se, hsem, hmem⟩
      · obtain ⟨p, hp, hpe⟩ := List.mem_map.1 hmem
        have hp0 : (p.1, p.2) ∈ (g0 :: rest).zip rest := by simpa using hp
        have hp1 : p.1 ∈ g0 :: rest := (List.of_mem_zip hp0).1
        have hp2 : p.2 ∈ rest := (List.of_mem_zip hp0).2
        rcases hside with hside | hside
        · refine ⟨p.1, hp1, ?_⟩
          rw [hside, ← hpe]
          exact hg p.1
        · refine ⟨p.2, List.mem_cons_of_mem g0 hp2, ?_⟩
          rw [hside, ← hpe]
          exact hg p.2
      · refine ⟨se, hsem, ?_⟩
        rcases hside with hside | hside
        · left
          rw [hside, hmem]
        · right
          rw [hside, hmem]

theorem break_left_head (g0 : PluginExpr PluginIndex) (rest : List (PluginExpr PluginIndex)) :
    ∃ e2 ∈ break_left_relation_group (g0 :: rest),
      e2.left_operand = g0.left_operand ∧ e2.right_operand = g0.right_operand := by
  refine ⟨{ left_operand := g0.left_operand, right_operand := g0.right_operand,
            relation := some special_rel }, ?_, rfl, rfl⟩
  simp [break_left_relation_group, break_relation_group]

theorem break_right_last (g0 : PluginExpr PluginIndex) (rest : List (PluginExpr PluginIndex)) :
    ∃ e2 ∈ break_right_relation_group (g0 :: rest),
      e2.left_operand = ((g0 :: rest).getLast (List.cons_ne_nil g0 rest)).left_operand
        ∧ e2.right_operand = ((g0 :: rest).getLast (List.cons_ne_nil g0 rest)).right_operand := by
  refine ⟨{ left_operand := ((g0 :: rest).getLast (List.cons_ne_nil g0 rest)).left_operand,
            right_operand := ((g0 :: rest).getLast (List.cons_ne_nil g0 rest)).right_operand,
            relation := some special_rel }, ?_, rfl, rfl⟩
  simp [break_right_relation_group, break_relation_group]

theorem operand_relations_iff (h : PluginIndex → Int) (work : List (PluginExpr PluginIndex))
    (x : PluginIndex) : OperandIn (relations_of h work) x ↔ OperandIn work x := by
  constructor
  · rintro ⟨e2, he2, hside⟩
    rcases List.mem_append.1 he2 with hin | hin
    · obtain ⟨bl, hbl, hebl⟩ := List.mem_flatten.1 hin
      obtain ⟨g, hgmem, rfl⟩ := List.mem_map.1 hbl
      have hop : OperandIn g x :=
        break_operand_sub _ (fun e => Or.inr rfl) _ _ _ ⟨e2, hebl, hside⟩
      obtain ⟨e3, he3, hside3⟩ := hop
      have : e3 ∈ sort_left h work := by
        rw [← yield_group_flatten (fun e => e.left_operand) (sort_left h work)]
        exact List.mem_flatten.2 ⟨g, hgmem, he3⟩
      exact ⟨e3, (mem_py_sort _ _ _).1 this, hside3⟩
    · obtain ⟨bl, hbl, hebl⟩ := List.mem_flatten.1 hin
      obtain ⟨g, hgmem, rfl⟩ := List.mem_map.1 hbl
      have hop : OperandIn g x :=
        break_operand_sub _ (fun e => Or.inl rfl) _ _ _ ⟨e2, hebl, hside⟩
      obtain ⟨e3, he3, hside3⟩ := hop
      have : e3 ∈ sort_right h work := by
        rw [← yield_group_flatten (fun e => e.right_operand) (sort_right h work)]
        exact List.mem_flatten.2 ⟨g, hgmem, he3⟩
      exact ⟨e3, (mem_py_sort _ _ _).1 this, hside3⟩
  · rintro ⟨e, he, hside⟩
    rcases hside with hside | hside
    · have hsort : e ∈ sort_left h work := (mem_py_sort _ _ _).2 he
      have hflat : e ∈ (yield_group (fun e => e.left_operand) (sort_left h work)).flatten := by
        rw [yield_group_flatten]
        exact hsort
      obtain ⟨g, hgmem, heg⟩ := List.mem_flatten.1 hflat
      obtain ⟨g0, rest2, rfl, hanch⟩ := yield_group_anchor _ _ _ hgmem
      obtain ⟨e2, he2, hleft, _⟩ := break_left_head g0 rest2
      refine ⟨e2, List.mem_append.2 (Or.inl (List.mem_flatten.2
        ⟨break_left_relation_group (g0 :: rest2),
          List.mem_map.2 ⟨g0 :: rest2, hgmem, rfl⟩, he2⟩)), Or.inl ?_⟩
      rw [hside, hleft, ← hanch e heg]
    · have hsort : e ∈ sort_right h work := (mem_py_sort _ _ _).2 he
      have hflat : e ∈ (yield_group (fun e => e.right_operand) (sort_right h work)).flatten := by
        rw [yield_group_flatten]
        exact hsort
      obtain ⟨g, hgmem, heg⟩ := List.mem_flatten.1 hflat
      obtain ⟨g0, rest2, rfl, hanch⟩ := yield_group_anchor _ _ _ hgmem
      obtain ⟨e2, he2, _, hright⟩ := break_right_last g0 rest2
      refine ⟨e2, List.mem_append.2 (Or.inr (List.mem_flatten.2
        ⟨break_right_relation_group (g0 :: rest2),
          List.mem_map.2 ⟨g0 :: rest2, hgmem, rfl⟩, he2⟩)), Or.inr ?_⟩
      rw [hside, hright, hanch _ (List.getLast_mem _), ← hanch e heg]

theorem operand_transform_iff (exprs : List (PluginExpr PluginIndex)) (x : PluginIndex) :
    OperandIn (transform_to_left_rel exprs) x ↔ OperandIn exprs x := by
  constructor
  · rintro ⟨e2, he2, hside⟩
    obtain ⟨e, he, rfl⟩ := List.mem_map.1 he2
    refine ⟨e, he, ?_⟩
    rcases hr : e.relation with _ | r
    · simpa [hr] using hside
    · by_cases hl : r.is_left_rel
      · simpa [hr, hl] using hside
      · simp only [hr, hl] at hside
        simp at hside
        tauto
  · rintro ⟨e, he, hside⟩
    rcases hr : e.relation with _ | r
    · refine ⟨e, ?_, hside⟩
      rw [transform_to_left_rel]
      refine List.mem_map.2 ⟨e, he, ?_⟩
      simp [hr]
    · by_cases hl : r.is_left_rel
      · refine ⟨e, ?_, hside⟩
        rw [transform_to_left_rel]
        refine List.mem_map.2 ⟨e, he, ?_⟩
        simp [hr, hl]
      · refine ⟨⟨e.right_operand, e.left_operand, some ⟨true, r.degree⟩⟩, ?_, ?_⟩
        · rw [transform_to_left_rel]
          refine List.mem_map.2 ⟨e, he, ?_⟩
          simp [hr, hl]
        · rcases hside with hside | hside
          · exact Or.inr hside
          · exact Or.inl hside

theorem lookup_mem {α β : Type} [DecidableEq α] (k : α) (v : β) (m : List (α × β)) :
    List.lookup k m = some v → (k, v) ∈ m := by
  induction m with
  | nil => simp [List.lookup]
  | cons kv rest ih =>
      intro hl
      rcases kv with ⟨a, b⟩
      by_cases hk : k = a
      · subst hk
        simp [List.lookup] at hl
        simp [hl]
      · have : (k == a) = false := by simpa using hk
        simp [List.lookup, this] at hl
        exact List.mem_cons_of_mem _ (ih hl)

theorem mem_keys_iff_lookup {α β : Type} [DecidableEq α] (k : α) (m : List (α × β)) :
    k ∈ m.map Prod.fst ↔ (List.lookup k m).isSome := by
  induction m with
  | nil => simp [List.lookup]
  | cons kv rest ih =>
      rcases kv with ⟨a, b⟩
      by_cases hk : k = a
      · subst hk
        simp [List.lookup]
      · have hba : (k == a) = false := by simpa using hk
        simp [List.lookup, hba, ih, hk]

theorem keys_map_update {α β : Type} [DecidableEq α] (m : List (α × β)) (k : α) (w : β) :
    (m.map fun kv => if kv.1 = k then (k, w) else kv).map Prod.fst = m.map Prod.fst := by
  rw [List.map_map]
  apply List.map_congr_left
  intro kv _
  by_cases hk : kv.1 = k <;> simp [hk]

theorem mem_keys_lhs_add (m : List (PluginIndex × List PluginIndex)) (k v x : PluginIndex) :
    x ∈ (lhs_add m k v).map Prod.fst ↔ x ∈ m.map Prod.fst ∨ x = k := by
  rcases hlk : List.lookup k m with _ | vs
  · simp [lhs_add, hlk]
  · have hkm : k ∈ m.map Prod.fst := by
      rw [mem_keys_iff_lookup, hlk]
      rfl
    simp only [lhs_add, hlk]
    rw [keys_map_update m k (vs ++ [v])]
    constructor
    · exact Or.inl
    · rintro (hx | rfl)
      · exact hx
      · exact hkm

theorem mem_keys_rhs_add (m : List (PluginIndex × Int)) (k x : PluginIndex) :
    x ∈ (rhs_add m k).map Prod.fst ↔ x ∈ m.map Prod.fst ∨ x = k := by
  rcases hlk : List.lookup k m with _ | c
  · simp [rhs_add, hlk]
  · have hkm : k ∈ m.map Prod.fst := by
      rw [mem_keys_iff_lookup, hlk]
      rfl
    simp only [rhs_add, hlk]
    rw [keys_map_update m k (c + 1)]
    constructor
    · exact Or.inl
    · rintro (hx | rfl)
      · exact hx
      · exact hkm

theorem keys_lhs_build (rels : List (PluginExpr PluginIndex))
    (acc : List (PluginIndex × List PluginIndex)) (x : PluginIndex) :
    x ∈ (rels.foldl (fun m e => lhs_add m e.left_operand e.right_operand) acc).map Prod.fst
      ↔ x ∈ acc.map Prod.fst ∨ ∃ e ∈ rels, e.left_operand = x := by
  induction rels generalizing acc with
  | nil => simp
  | cons e es ih =>
      rw [List.foldl_cons, ih]
      rw [mem_keys_lhs_add]
      simp only [List.mem_cons]
      constructor
      · rintro ((hx | rfl) | ⟨e2, he2, hx⟩)
        · tauto
        · exact Or.inr ⟨e, Or.inl rfl, rfl⟩
        · exact Or.inr ⟨e2, Or.inr he2, hx⟩
      · rintro (hx | ⟨e2, (rfl | he2), hx⟩)
        · tauto
        · exact Or.inl (Or.inr hx.symm)
        · exact Or.inr ⟨e2, he2, hx⟩

theorem keys_rhs_build (rels : List (PluginExpr PluginIndex))
    (acc : List (PluginIndex × Int)) (x : PluginIndex) :
    x ∈ (rels.foldl (fun m e => rhs_add m e.right_operand) acc).map Prod.fst
      ↔ x ∈ acc.map Prod.fst ∨ ∃ e ∈ rels, e.right_operand = x := by
  induction rels generalizing acc with
  | nil => simp
  | cons e es ih =>
      rw [List.foldl_cons, ih]
      rw [mem_keys_rhs_add]
      simp only [List.mem_cons]
      constructor
      · rintro ((hx | rfl) | ⟨e2, he2, hx⟩)
        · tauto
        · exact Or.inr ⟨e, Or.inl rfl, rfl⟩
        · exact Or.inr ⟨e2, Or.inr he2, hx⟩
      · rintro (hx | ⟨e2, (rfl | he2), hx⟩)
        · tauto
        · exact Or.inl (Or.inr hx.symm)
        · exact Or.inr ⟨e2, he2, hx⟩

theorem keys_nodup_lhs_add (m : List (PluginIndex × List PluginIndex)) (k v : PluginIndex)
    (hn : (m.map Prod.fst).Nodup) : ((lhs_add m k v).map Prod.fst).Nodup := by
  rcases hlk : List.lookup k m with _ | vs
  · have hkm : k ∉ m.map Prod.fst := by
      rw [mem_keys_iff_lookup, hlk]
      simp
    simp only [lhs_add, hlk, List.map_append]
    rw [List.nodup_append]
    refine ⟨hn, List.nodup_singleton _, ?_⟩
    intro a ha hb
    simp at hb
    subst hb
    exact hkm ha
  · simp only [lhs_add, hlk]
    rw [keys_map_update m k (vs ++ [v])]
    exact hn

theorem keys_nodup_rhs_add (m : List (PluginIndex × Int)) (k : PluginIndex)
    (hn : (m.map Prod.fst).Nodup) : ((rhs_add m k).map Prod.fst).Nodup := by
  rcases hlk : List.lookup k m with _ | c
  · have hkm : k ∉ m.map Prod.fst := by
      rw [mem_keys_iff_lookup, hlk]
      simp
    simp only [rhs_add, hlk, List.map_append]
    rw [List.nodup_append]
    refine ⟨hn, List.nodup_singleton _, ?_⟩
    intro a ha hb
    simp at hb
    subst hb
    exact hkm ha
  · simp only [rhs_add, hlk]
    rw [keys_map_update m k (c + 1)]
    exact hn

theorem keys_nodup_build_lhs (relations : List (PluginExpr PluginIndex)) :
    ((build_lhs relations).map Prod.fst).Nodup := by
  rw [build_lhs]
  have : ∀ (rels : List (PluginExpr PluginIndex)) (acc : List (PluginIndex × List PluginIndex)),
      (acc.map Prod.fst).Nodup →
      ((rels.foldl (fun m e => lhs_add m e.left_operand e.right_operand) acc).map
        Prod.fst).Nodup := by
    intro rels
    induction rels with
    | nil => intro acc h; exact h
    | cons e es ih =>
        intro acc h
        exact ih _ (keys_nodup_lhs_add _ _ _ h)
  exact this relations [] (by simp)

theorem keys_nodup_build_rhs (relations : List (PluginExpr PluginIndex)) :
    ((build_rhs relations).map Prod.fst).Nodup := by
  rw [build_rhs]
  have : ∀ (rels : List (PluginExpr PluginIndex)) (acc : List (PluginIndex × Int)),
      (acc.map Prod.fst).Nodup →
      ((rels.foldl (fun m e => rhs_add m e.right_operand) acc).map Prod.fst).Nodup := by
    intro rels
    induction rels with
    | nil => intro acc h; exact h
    | cons e es ih =>
        intro acc h
        exact ih _ (keys_nodup_rhs_add _ _ h)
  exact this relations [] (by simp)

theorem mem_keys_filter_ne {β : Type} (lhs : List (PluginIndex × β))
    (item x : PluginIndex) :
    x ∈ (lhs.filter fun kv2 => decide (kv2.1 ≠ item)).map Prod.fst
      ↔ x ∈ lhs.map Prod.fst ∧ x ≠ item := by
  constructor
  · intro hx
    obtain ⟨kv, hkv, rfl⟩ := List.mem_map.1 hx
    obtain ⟨hkv2, hne⟩ := List.mem_filter.1 hkv
    simp at hne
    exact ⟨List.mem_map.2 ⟨kv, hkv2, rfl⟩, hne⟩
  · rintro ⟨hx, hne⟩
    obtain ⟨kv, hkv, rfl⟩ := List.mem_map.1 hx
    refine List.mem_map.2 ⟨kv, List.mem_filter.2 ⟨hkv, ?_⟩, rfl⟩
    simpa using hne

theorem kahn_fuel_ok_mem (h : PluginIndex → Int) :
    ∀ (fuel : Nat) (lhs : List (PluginIndex × List PluginIndex))
      (rhs : List (PluginIndex × Int)) (acc out : List PluginIndex),
      kahn_fuel h fuel lhs rhs acc = .ok out →
      ∀ x, x ∈ out ↔ x ∈ acc ∨ x ∈ lhs.map Prod.fst := by
  intro fuel
  induction fuel with
  | zero =>
      intro lhs rhs acc out hok x
      cases lhs with
      | nil =>
          simp only [kahn_fuel, Except.ok.injEq] at hok
          subst hok
          simp
      | cons kv rest => simp [kahn_fuel] at hok
  | succ n ih =>
      intro lhs rhs acc out hok x
      cases lhs with
      | nil =>
          simp only [kahn_fuel, Except.ok.injEq] at hok
          subst hok
          simp
      | cons kv rest =>
          simp only [kahn_fuel] at hok
          cases hm : py_min h (((kv :: rest).map Prod.fst).filter fun k =>
              decide (k ∉ rhs.map Prod.fst)) with
          | none => rw [hm] at hok; simp at hok
          | some item =>
              rw [hm] at hok
              have hitem : item ∈ (kv :: rest).map Prod.fst := by
                have := py_min_mem _ _ _ hm
                exact (List.mem_filter.1 this).1
              have hrec := ih _ _ _ _ hok x
              rw [hrec, mem_keys_filter_ne]
              simp only [List.mem_append, List.mem_singleton]
              by_cases hxi : x = item
              · subst hxi
                tauto
              · tauto

theorem mem_keys_build_lhs (relations : List (PluginExpr PluginIndex)) (x : PluginIndex) :
    x ∈ (build_lhs relations).map Prod.fst ↔ ∃ e ∈ relations, e.left_operand = x := by
  rw [build_lhs, keys_lhs_build]
  simp

theorem mem_keys_build_rhs (relations : List (PluginExpr PluginIndex)) (x : PluginIndex) :
    x ∈ (build_rhs relations).map Prod.fst ↔ ∃ e ∈ relations, e.right_operand = x := by
  rw [build_rhs, keys_rhs_build]
  simp

theorem mem_left_behind_of (relations irrelevant : List (PluginExpr PluginIndex))
    (x : PluginIndex) :
    x ∈ left_behind_of relations irrelevant
      ↔ x ∈ irrelevant.map (fun e => e.left_operand)
        ∨ ((∃ e ∈ relations, e.right_operand = x) ∧ ¬ ∃ e ∈ relations, e.left_operand = x) := by
  rw [left_behind_of, mem_foldl_insert_once, mem_set_of]
  constructor
  · rintro (hx | hx)
    · exact Or.inl hx
    · obtain ⟨hmem, hne⟩ := List.mem_filter.1 hx
      simp only [decide_eq_true_eq] at hne
      rw [mem_keys_build_rhs] at hmem
      rw [mem_keys_build_lhs] at hne
      exact Or.inr ⟨hmem, hne⟩
  · rintro (hx | ⟨hr, hl⟩)
    · exact Or.inl hx
    · refine Or.inr (List.mem_filter.2 ⟨?_, ?_⟩)
      · rw [mem_keys_build_rhs]
        exact hr
      · simp only [decide_eq_true_eq]
        rw [mem_keys_build_lhs]
        exact hl

theorem operand_in_iff (lrel : List (PluginExpr PluginIndex)) (x : PluginIndex) :
    OperandIn lrel x
      ↔ (∃ e ∈ lrel, e.left_operand = x) ∨ (∃ e ∈ lrel, e.right_operand = x) := by
  constructor
  · rintro ⟨e, he, (hs | hs)⟩
    · exact Or.inl ⟨e, he, hs.symm⟩
    · exact Or.inr ⟨e, he, hs.symm⟩
  · rintro (⟨e, he, hs⟩ | ⟨e, he, hs⟩)
    · exact ⟨e, he, Or.inl hs.symm⟩
    · exact ⟨e, he, Or.inr hs.symm⟩

theorem gse_ok_mem (h : PluginIndex → Int)
    (relations irrelevant : List (PluginExpr PluginIndex)) (l : List PluginIndex)
    (hok : generate_execution_order h relations irrelevant = .ok l) (x : PluginIndex) :
    x ∈ l ↔ is_sentinel x = false
      ∧ ((∃ e ∈ relations, e.left_operand = x) ∨ (∃ e ∈ relations, e.right_operand = x)
          ∨ x ∈ irrelevant.map fun e => e.left_operand) := by
  rw [generate_execution_order] at hok
  cases hk : kahn h (build_lhs relations) (build_rhs relations) [] with
  | error err =>
      rw [hk] at hok
      simp at hok
  | ok order =>
      rw [hk] at hok
      simp only [Except.ok.injEq] at hok
      subst hok
      rw [strip_eq_filter, List.mem_filter, List.mem_append]
      rw [kahn] at hk
      have hout : x ∈ order ↔ ∃ e ∈ relations, e.left_operand = x := by
        have hmm := kahn_fuel_ok_mem h _ _ _ _ _ hk x
        rw [← mem_keys_build_lhs]
        simpa using hmm
      have hlb : x ∈ py_sort_by_hash h (left_behind_of relations irrelevant)
          ↔ x ∈ irrelevant.map (fun e => e.left_operand)
            ∨ ((∃ e ∈ relations, e.right_operand = x)
                ∧ ¬ ∃ e ∈ relations, e.left_operand = x) := by
        rw [py_sort_by_hash, mem_py_sort, mem_left_behind_of]
      rw [hout, hlb]
      have hbool : ((!is_sentinel x) = true) ↔ is_sentinel x = false := by
        simp
      rw [hbool]
      generalize (∃ e ∈ relations, e.left_operand = x) = A
      generalize (∃ e ∈ relations, e.right_operand = x) = B
      generalize (x ∈ irrelevant.map fun e => e.left_operand) = C
      generalize (is_sentinel x = false) = S
      tauto

theorem generate_sequence_ok_mem (h : PluginIndex → Int)
    (exprs : List (PluginExpr PluginIndex)) (l : List PluginIndex)
    (hok : generate_sequence h exprs = .ok l) (x : PluginIndex) :
    x ∈ l ↔ is_sentinel x = false
      ∧ (OperandIn (exprs.filter fun e => !e.relation.isNone) x
          ∨ x ∈ (exprs.filter fun e => e.relation.isNone).map fun e => e.left_operand) := by
  rw [generate_sequence] at hok
  have hmem := gse_ok_mem h _ _ l hok x
  rw [hmem]
  have hirr : ((remove_irrelevant_exprs exprs).2.map fun e => e.left_operand)
      = (exprs.filter fun e => e.relation.isNone).map fun e => e.left_operand := by
    rw [remove_eq_partition]
  have hop : OperandIn (merged_relations h exprs) x
      ↔ OperandIn (exprs.filter fun e => !e.relation.isNone) x := by
    rw [merged_relations, operand_relations_iff, operand_transform_iff, remove_eq_partition]
  rw [hirr]
  constructor
  · rintro ⟨hs, hrest⟩
    refine ⟨hs, ?_⟩
    rcases hrest with hA | hB | hC
    · exact Or.inl (hop.1 ((operand_in_iff _ _).2 (Or.inl hA)))
    · exact Or.inl (hop.1 ((operand_in_iff _ _).2 (Or.inr hB)))
    · exact Or.inr hC
  · rintro ⟨hs, hrest⟩
    refine ⟨hs, ?_⟩
    rcases hrest with hop2 | hC
    · rcases (operand_in_iff _ _).1 (hop.2 hop2) with hA | hB
      · exact Or.inl hA
      · exact Or.inr (Or.inl hB)
    · exact Or.inr (Or.inr hC)

theorem Models_ext (rhs : List (PluginIndex × Int)) (f g : PluginIndex → Nat)
    (hfg : ∀ y, f y = g y) (hm : Models rhs f) : Models rhs g := by
  obtain ⟨h1, h2, h3⟩ := hm
  refine ⟨h1, ?_, ?_⟩
  · intro k
    rw [← hfg k]
    exact h2 k
  · intro kv hkv
    rw [← hfg kv.1]
    exact h3 kv hkv

theorem countsOf_nil (y : PluginIndex) : countsOf [] y = 0 := rfl

theorem countsOf_cons (kv : PluginIndex × List PluginIndex)
    (rest : List (PluginIndex × List PluginIndex)) (y : PluginIndex) :
    countsOf (kv :: rest) y = kv.2.count y + countsOf rest y := by
  simp [countsOf]

theorem countsOf_ge_entry (lhs : List (PluginIndex × List PluginIndex))
    (k : PluginIndex) (vs : List PluginIndex) (hmem : (k, vs) ∈ lhs) (y : PluginIndex) :
    vs.count y ≤ countsOf lhs y := by
  apply List.single_le_sum (l := lhs.map fun kv => kv.2.count y)
  · intro n _
    exact Nat.zero_le n
  · exact List.mem_map.2 ⟨(k, vs), hmem, rfl⟩

theorem nodup_entry_eq {β : Type} (m : List (PluginIndex × β)) (k : PluginIndex) (a b : β)
    (hn : (m.map Prod.fst).Nodup) (ha : (k, a) ∈ m) (hb : (k, b) ∈ m) : a = b := by
  induction m with
  | nil => simp at ha
  | cons kv rest ih =>
      rw [List.map_cons, List.nodup_cons] at hn
      rcases List.mem_cons.1 ha with ha2 | ha2 <;> rcases List.mem_cons.1 hb with hb2 | hb2
      · rw [← ha2] at hb2
        exact (congrArg Prod.snd hb2).symm
      · exfalso
        apply hn.1
        rw [← ha2]
        exact List.mem_map.2 ⟨(k, b), hb2, rfl⟩
      · exfalso
        apply hn.1
        rw [← hb2]
        exact List.mem_map.2 ⟨(k, a), ha2, rfl⟩
      · exact ih hn.2 ha2 hb2

theorem models_lookup (rhs : List (PluginIndex × Int)) (f : PluginIndex → Nat)
    (hm : Models rhs f) (k : PluginIndex) (hk : 0 < f k) :
    List.lookup k rhs = some ((f k : Nat) : Int) := by
  obtain ⟨hnd, hmem, hval⟩ := hm
  have hkk : k ∈ rhs.map Prod.fst := (hmem k).2 hk
  rw [mem_keys_iff_lookup] at hkk
  rcases hl : List.lookup k rhs with _ | c
  · rw [hl] at hkk
    simp at hkk
  · have := hval (k, c) (lookup_mem _ _ _ hl)
    simp at this
    rw [this]

theorem rhs_decr_one (rhs : List (PluginIndex × Int)) (f : PluginIndex → Nat)
    (y : PluginIndex) (hm : Models rhs f) (hy : 0 < f y) :
    Models (rhs_decr rhs y) (fun x => f x - if x = y then 1 else 0) := by
  have hlk := models_lookup rhs f hm y hy
  obtain ⟨hnd, hmem, hval⟩ := hm
  simp only [rhs_decr, hlk]
  by_cases hone : ((f y : Nat) : Int) - 1 = 0
  · have hfy : f y = 1 := by omega
    rw [if_pos hone]
    refine ⟨?_, ?_, ?_⟩
    · exact List.Nodup.sublist (List.Sublist.map Prod.fst (List.filter_sublist rhs)) hnd
    · intro k
      rw [mem_keys_filter_ne]
      simp only []
      constructor
      · rintro ⟨hk, hne⟩
        have := (hmem k).1 hk
        rw [if_neg hne]
        omega
      · intro hk
        by_cases hky : k = y
        · subst hky
          rw [if_pos rfl, hfy] at hk
          omega
        · rw [if_neg hky] at hk
          exact ⟨(hmem k).2 (by omega), hky⟩
    · intro kv hkv
      have hin := List.mem_filter.1 hkv
      have hne : kv.1 ≠ y := by simpa using hin.2
      simp only [if_neg hne]
      have := hval kv hin.1
      rw [this]
      simp
  · rw [if_neg hone]
    have hfy2 : 2 ≤ f y := by
      have h1 : f y ≠ 1 := by
        intro hh
        rw [hh] at hone
        simp at hone
      omega
    refine ⟨?_, ?_, ?_⟩
    · rw [keys_map_update]
      exact hnd
    · intro k
      rw [keys_map_update]
      simp only []
      by_cases hky : k = y
      · subst hky
        rw [if_pos rfl]
        constructor
        · intro _
          omega
        · intro _
          exact (hmem k).2 hy
      · rw [if_neg hky]
        rw [hmem k]
        omega
    · intro kv hkv
      obtain ⟨kv0, hkv0, heq⟩ := List.mem_map.1 hkv
      by_cases hk0 : kv0.1 = y
      · rw [if_pos hk0] at heq
        rw [← heq]
        simp only [if_pos rfl]
        push_cast
        omega
      · rw [if_neg hk0] at heq
        rw [← heq]
        simp only [if_neg hk0]
        have := hval kv0 hkv0
        rw [this]
        simp

theorem rhs_decr_fold (vs : List PluginIndex) :
    ∀ (rhs : List (PluginIndex × Int)) (f : PluginIndex → Nat),
      Models rhs f → (∀ y, vs.count y ≤ f y) →
      Models (vs.foldl rhs_decr rhs) (fun x => f x - vs.count x) := by
  induction vs with
  | nil =>
      intro rhs f hm _
      apply Models_ext rhs f
      · intro y
        simp
      · exact hm
  | cons v vs ih =>
      intro rhs f hm hcond
      have hv : 0 < f v := by
        have := hcond v
        rw [List.count_cons] at this
        simp at this
        omega
      have h1 := rhs_decr_one rhs f v hm hv
      rw [List.foldl_cons]
      have h2 := ih (rhs_decr rhs v) (fun x => f x - if x = v then 1 else 0) h1 ?cond
      case cond =>
        intro y
        have hc := hcond y
        rw [List.count_cons] at hc
        by_cases hyv : y = v
        · subst hyv
          simp at hc ⊢
          omega
        · have hbv : (v == y) = false := by
            simp only [beq_eq_false_iff_ne, ne_eq]
            exact fun he => hyv he.symm
          simp [hbv] at hc
          simp only [if_neg hyv]
          omega
      apply Models_ext _ _ _ _ h2
      intro y
      rw [List.count_cons]
      by_cases hyv : y = v
      · subst hyv
        simp only [if_pos rfl]
        simp
        omega
      · have hbv : (v == y) = false := by
          simp only [beq_eq_false_iff_ne, ne_eq]
          exact fun he => hyv he.symm
        simp [hbv, if_neg hyv]

theorem countsOf_append (l1 l2 : List (PluginIndex × List PluginIndex)) (y : PluginIndex) :
    countsOf (l1 ++ l2) y = countsOf l1 y + countsOf l2 y := by
  simp [countsOf]

theorem countsOf_map_update (m : List (PluginIndex × List PluginIndex)) (k : PluginIndex)
    (vs : List PluginIndex) (v : PluginIndex) (hn : (m.map Prod.fst).Nodup)
    (hlk : List.lookup k m = some vs) (x : PluginIndex) :
    countsOf (m.map fun kv => if kv.1 = k then (k, vs ++ [v]) else kv) x
      = countsOf m x + List.count x [v] := by
  induction m with
  | nil => simp [List.lookup] at hlk
  | cons kv rest ih =>
      rw [List.map_cons, List.nodup_cons] at hn
      rcases kv with ⟨a, b⟩
      by_cases hk : a = k
      · subst hk
        have hvb : b = vs := by
          simp [List.lookup] at hlk
          exact hlk
        subst hvb
        rw [List.map_cons]
        have hhead : (if ((a : PluginIndex), b).1 = a then (a, b ++ [v]) else (a, b))
            = (a, b ++ [v]) := by simp
        rw [hhead]
        have hrest : rest.map (fun kv => if kv.1 = a then (a, b ++ [v]) else kv) = rest := by
          have hid : ∀ kv2 ∈ rest, (if kv2.1 = a then (a, b ++ [v]) else kv2) = kv2 := by
            intro kv2 hkv2
            rw [if_neg]
            intro hc
            exact hn.1 (List.mem_map.2 ⟨kv2, hkv2, hc⟩)
          rw [List.map_congr_left hid]
          simp
        rw [hrest, countsOf_cons, countsOf_cons]
        simp only [List.count_append]
        omega
      · have hbk : (k == a) = false := by
          simp
          exact fun he => hk he.symm
        simp only [List.lookup, hbk] at hlk
        rw [List.map_cons]
        simp only [if_neg hk]
        rw [countsOf_cons, countsOf_cons, ih hn.2 hlk]
        omega

theorem countsOf_lhs_add (m : List (PluginIndex × List PluginIndex)) (k v : PluginIndex)
    (hn : (m.map Prod.fst).Nodup) (x : PluginIndex) :
    countsOf (lhs_add m k v) x = countsOf m x + List.count x [v] := by
  rcases hlk : List.lookup k m with _ | vs
  · simp only [lhs_add, hlk]
    rw [countsOf_append, countsOf_cons, countsOf_nil]
    simp
  · simp only [lhs_add, hlk]
    exact countsOf_map_update m k vs v hn hlk x

theorem models_rhs_add (r : List (PluginIndex × Int)) (f : PluginIndex → Nat)
    (y : PluginIndex) (hm : Models r f) :
    Models (rhs_add r y) (fun x => f x + List.count x [y]) := by
  obtain ⟨hnd, hmem, hval⟩ := hm
  rcases hlk : List.lookup y r with _ | c
  · have hy0 : f y = 0 := by
      by_contra hc
      have hyk : y ∈ r.map Prod.fst := (hmem y).2 (Nat.pos_of_ne_zero hc)
      rw [mem_keys_iff_lookup, hlk] at hyk
      simp at hyk
    simp only [rhs_add, hlk]
    refine ⟨?_, ?_, ?_⟩
    · rw [List.map_append, List.nodup_append]
      refine ⟨hnd, List.nodup_singleton _, ?_⟩
      intro a ha hb
      simp at hb
      subst hb
      rw [mem_keys_iff_lookup, hlk] at ha
      simp at ha
    · intro k
      rw [List.map_append, List.mem_append]
      simp only [List.map_cons, List.map_nil, List.mem_singleton]
      by_cases hky : k = y
      · subst hky
        simp [List.count_singleton, hy0]
      · have hcnt : List.count k [y] = 0 := by
          rw [List.count_singleton]
          simp
          exact fun he => hky he.symm
        rw [hcnt]
        simp only [hky, or_false]
        rw [hmem k]
        omega
    · intro kv hkv
      rcases List.mem_append.1 hkv with hkv2 | hkv2
      · have hne : kv.1 ≠ y := by
          intro hc
          have : y ∈ r.map Prod.fst := List.mem_map.2 ⟨kv, hkv2, hc⟩
          rw [mem_keys_iff_lookup, hlk] at this
          simp at this
        have hcnt : List.count kv.1 [y] = 0 := by
          rw [List.count_singleton]
          simp
          exact fun he => hne he.symm
        simp only [hcnt, Nat.add_zero]
        exact hval kv hkv2
      · simp at hkv2
        rw [hkv2]
        simp [List.count_singleton, hy0]
  · have hyc : (y, c) ∈ r := lookup_mem _ _ _ hlk
    have hy : 0 < f y := (hmem y).1 (List.mem_map.2 ⟨(y, c), hyc, rfl⟩)
    have hcv : c = (f y : Int) := by simpa using hval (y, c) hyc
    simp only [rhs_add, hlk]
    refine ⟨?_, ?_, ?_⟩
    · rw [keys_map_update]
      exact hnd
    · intro k
      rw [keys_map_update]
      by_cases hky : k = y
      · rw [hky]
        constructor
        · intro _
          have hc1 : List.count y [y] = 1 := by simp
          simp only [hc1]
          omega
        · intro _
          exact (hmem y).2 hy
      · have hcnt : List.count k [y] = 0 := by
          rw [List.count_singleton]
          simp
          exact fun he => hky he.symm
        simp only [hcnt, Nat.add_zero]
        exact hmem k
    · intro kv hkv
      obtain ⟨kv0, hkv0, heq⟩ := List.mem_map.1 hkv
      by_cases hk0 : kv0.1 = y
      · rw [if_pos hk0] at heq
        rw [← heq]
        show c + 1 = ((f y + List.count y [y] : Nat) : Int)
        have hc1 : List.count y [y] = 1 := by simp
        rw [hc1, hcv]
        push_cast
        omega
      · rw [if_neg hk0] at heq
        rw [← heq]
        have hcnt : List.count kv0.1 [y] = 0 := by
          rw [List.count_singleton]
          simp
          exact fun he => hk0 he.symm
        simp only [hcnt, Nat.add_zero]
        exact hval kv0 hkv0

theorem build_models_general (rels : List (PluginExpr PluginIndex)) :
    ∀ (lhsAcc : List (PluginIndex × List PluginIndex)) (rhsAcc : List (PluginIndex × Int)),
      (lhsAcc.map Prod.fst).Nodup → Models rhsAcc (countsOf lhsAcc) →
      Models (rels.foldl (fun m e => rhs_add m e.right_operand) rhsAcc)
        (countsOf (rels.foldl (fun m e => lhs_add m e.left_operand e.right_operand) lhsAcc)) := by
  induction rels with
  | nil =>
      intro lhsAcc rhsAcc _ hm
      exact hm
  | cons e es ih =>
      intro lhsAcc rhsAcc hnd hm
      rw [List.foldl_cons, List.foldl_cons]
      apply ih _ _ (keys_nodup_lhs_add _ _ _ hnd)
      apply Models_ext _ _ _ ?_ (models_rhs_add _ _ e.right_operand hm)
      intro y
      rw [countsOf_lhs_add _ _ _ hnd]

theorem models_build (relations : List (PluginExpr PluginIndex)) :
    Models (build_rhs relations) (countsOf (build_lhs relations)) := by
  rw [build_lhs, build_rhs]
  apply build_models_general relations [] []
  · simp
  · refine ⟨by simp, ?_, ?_⟩
    · intro k
      simp [countsOf_nil]
    · intro kv hkv
      simp at hkv

theorem countsOf_filter_ne (lhs : List (PluginIndex × List PluginIndex))
    (item : PluginIndex) (vs : List PluginIndex) (hn : (lhs.map Prod.fst).Nodup)
    (hmem : (item, vs) ∈ lhs) (y : PluginIndex) :
    countsOf lhs y
      = countsOf (lhs.filter fun kv => decide (kv.1 ≠ item)) y + vs.count y := by
  induction lhs with
  | nil => simp at hmem
  | cons kv rest ih =>
      rw [List.map_cons, List.nodup_cons] at hn
      by_cases hk : kv.1 = item
      · have hkv : kv = (item, vs) := by
          rcases List.mem_cons.1 hmem with hm2 | hm2
          · exact hm2.symm
          · exfalso
            apply hn.1
            rw [hk]
            exact List.mem_map.2 ⟨(item, vs), hm2, rfl⟩
        have hdec : (decide (kv.1 ≠ item)) = false := by simp [hk]
        rw [List.filter_cons, hdec]
        simp only [Bool.false_eq_true, if_false]
        have hrest : rest.filter (fun kv => decide (kv.1 ≠ item)) = rest := by
          apply List.filter_eq_self.2
          intro kv2 hkv2
          simp only [decide_eq_true_eq]
          intro hc
          apply hn.1
          rw [hk, ← hc]
          exact List.mem_map.2 ⟨kv2, hkv2, rfl⟩
        rw [hrest, countsOf_cons, hkv]
        show vs.count y + countsOf rest y = countsOf rest y + vs.count y
        omega
      · have hdec : (decide (kv.1 ≠ item)) = true := by simp [hk]
        rw [List.filter_cons, hdec]
        simp only [if_true]
        have hmem2 : (item, vs) ∈ rest := by
          rcases List.mem_cons.1 hmem with hm2 | hm2
          · exfalso
            apply hk
            rw [← hm2]
          · exact hm2
        rw [countsOf_cons, countsOf_cons, ih hn.2 hmem2]
        omega

theorem edge_pos (lhs : List (PluginIndex × List PluginIndex)) (q y : PluginIndex)
    (hE : EdgeOf lhs q y) : 0 < countsOf lhs y := by
  obtain ⟨kv, hkv, _, hy⟩ := hE
  have h1 : 0 < kv.2.count y := List.count_pos_iff.2 hy
  have h2 : kv.2.count y ≤ countsOf lhs y := countsOf_ge_entry lhs kv.1 kv.2 (by simpa using hkv) y
  omega

theorem edge_filter_iff (lhs : List (PluginIndex × List PluginIndex))
    (item x y : PluginIndex) :
    EdgeOf (lhs.filter fun kv => decide (kv.1 ≠ item)) x y
      ↔ EdgeOf lhs x y ∧ x ≠ item := by
  constructor
  · rintro ⟨kv, hkv, hx, hy⟩
    obtain ⟨hkv2, hne⟩ := List.mem_filter.1 hkv
    simp at hne
    refine ⟨⟨kv, hkv2, hx, hy⟩, ?_⟩
    rw [← hx]
    exact hne
  · rintro ⟨⟨kv, hkv, hx, hy⟩, hne⟩
    refine ⟨kv, List.mem_filter.2 ⟨hkv, ?_⟩, hx, hy⟩
    simp
    rw [hx]
    exact hne

theorem chain_pred {R : PluginIndex → PluginIndex → Prop} :
    ∀ (p : List PluginIndex) (x b : PluginIndex), List.Chain R x p → b ∈ p → ∃ a, R a b := by
  intro p
  induction p with
  | nil =>
      intro x b _ hb
      simp at hb
  | cons y p2 ih =>
      intro x b hch hb
      rw [List.chain_cons] at hch
      rcases List.mem_cons.1 hb with rfl | hb2
      · exact ⟨x, hch.1⟩
      · exact ih y b hch.2 hb2

theorem chain_avoid {R S : PluginIndex → PluginIndex → Prop} (item : PluginIndex)
    (himp : ∀ a b, R a b → a ≠ item → S a b) :
    ∀ (p : List PluginIndex) (x : PluginIndex), List.Chain R x p →
      (∀ a ∈ x :: p, a ≠ item) → List.Chain S x p := by
  intro p
  induction p with
  | nil =>
      intro x _ _
      exact List.Chain.nil
  | cons y p2 ih =>
      intro x hch hne
      rw [List.chain_cons] at hch ⊢
      refine ⟨himp x y hch.1 (hne x (List.mem_cons_self _ _)), ?_⟩
      exact ih y hch.2 fun a ha => hne a (List.mem_cons_of_mem x ha)

theorem kahn_fuel_ok_no_cycle (h : PluginIndex → Int) :
    ∀ (fuel : Nat) (lhs : List (PluginIndex × List PluginIndex))
      (rhs : List (PluginIndex × Int)) (acc out : List PluginIndex),
      lhs.length ≤ fuel → (lhs.map Prod.fst).Nodup → Models rhs (countsOf lhs) →
      kahn_fuel h fuel lhs rhs acc = .ok out → ¬ HasCycleRel (EdgeOf lhs) := by
  intro fuel
  induction fuel with
  | zero =>
      intro lhs rhs acc out hlen _ _ _
      have hnil : lhs = [] := by
        cases lhs with
        | nil => rfl
        | cons kv rest => simp at hlen
      subst hnil
      rintro ⟨x, p, _, hcl⟩
      obtain ⟨kv, hkv, _⟩ := hcl
      simp at hkv
  | succ n ih =>
      intro lhs rhs acc out hlen hnd hm hok
      cases lhs with
      | nil =>
          rintro ⟨x, p, _, hcl⟩
          obtain ⟨kv, hkv, _⟩ := hcl
          simp at hkv
      | cons kv0 rest =>
          simp only [kahn_fuel] at hok
          cases hmn : py_min h (((kv0 :: rest).map Prod.fst).filter fun k =>
              decide (k ∉ rhs.map Prod.fst)) with
          | none =>
              rw [hmn] at hok
              simp at hok
          | some item =>
              rw [hmn] at hok
              have hitem_mem := py_min_mem _ _ _ hmn
              have hitem_keys : item ∈ (kv0 :: rest).map Prod.fst :=
                (List.mem_filter.1 hitem_mem).1
              have hitem_rhs : item ∉ rhs.map Prod.fst := by
                have := (List.mem_filter.1 hitem_mem).2
                simpa using this
              have hcnt0 : countsOf (kv0 :: rest) item = 0 := by
                by_contra hc
                exact hitem_rhs ((hm.2.1 item).2 (Nat.pos_of_ne_zero hc))
              have hnoedge : ∀ q, ¬ EdgeOf (kv0 :: rest) q item := by
                intro q hE
                have := edge_pos _ _ _ hE
                omega
              have hsome : ∃ vs, List.lookup item (kv0 :: rest) = some vs := by
                have := (mem_keys_iff_lookup item (kv0 :: rest)).1 hitem_keys
                exact Option.isSome_iff_exists.1 this
              obtain ⟨vs, hvs⟩ := hsome
              have hvs_mem : (item, vs) ∈ kv0 :: rest := lookup_mem _ _ _ hvs
              have hok2 : kahn_fuel h n
                  ((kv0 :: rest).filter fun kv2 => decide (kv2.1 ≠ item))
                  (List.foldl rhs_decr rhs ((List.lookup item (kv0 :: rest)).getD []))
                  (acc ++ [item]) = Except.ok out := hok
              rw [hvs] at hok2
              simp only [Option.getD_some] at hok2
              have hcond : ∀ y, vs.count y ≤ countsOf (kv0 :: rest) y := fun y =>
                countsOf_ge_entry _ _ _ hvs_mem y
              have hm2 := rhs_decr_fold vs rhs (countsOf (kv0 :: rest)) hm hcond
              have hsplit := countsOf_filter_ne (kv0 :: rest) item vs hnd hvs_mem
              have hm3 : Models (vs.foldl rhs_decr rhs)
                  (countsOf ((kv0 :: rest).filter fun kv => decide (kv.1 ≠ item))) := by
                apply Models_ext _ _ _ ?_ hm2
                intro y
                have := hsplit y
                omega
              have hnd2 : (((kv0 :: rest).filter fun kv =>
                  decide (kv.1 ≠ item)).map Prod.fst).Nodup :=
                List.Nodup.sublist (List.Sublist.map Prod.fst (List.filter_sublist _)) hnd
              have hlen2 : ((kv0 :: rest).filter fun kv => decide (kv.1 ≠ item)).length ≤ n := by
                have hlt : ((kv0 :: rest).filter fun kv =>
                    decide (kv.1 ≠ item)).length < (kv0 :: rest).length := by
                  rw [List.length_filter_lt_length_iff_exists]
                  exact ⟨(item, vs), hvs_mem, by simp⟩
                simp only [List.length_cons] at hlt hlen
                omega
              have hnc := ih _ _ _ _ hlen2 hnd2 hm3 hok2
              rintro ⟨x, p, hch, hcl⟩
              by_cases hx : item ∈ x :: p
              · rcases List.mem_cons.1 hx with rfl | hx2
                · exact hnoedge _ hcl
                · obtain ⟨a, ha⟩ := chain_pred p x item hch hx2
                  exact hnoedge a ha
              · have hne : ∀ a ∈ x :: p, a ≠ item := fun a ha he => hx (he ▸ ha)
                apply hnc
                refine ⟨x, p, ?_, ?_⟩
                · refine chain_avoid item ?_ p x hch hne
                  intro a b hab hane
                  exact (edge_filter_iff _ _ _ _).2 ⟨hab, hane⟩
                · exact (edge_filter_iff _ _ _ _).2 ⟨hcl, hne _ (List.getLast_mem _)⟩

theorem edge_lhs_add (m : List (PluginIndex × List PluginIndex)) (k v x y : PluginIndex)
    (hnd : (m.map Prod.fst).Nodup) :
    EdgeOf (lhs_add m k v) x y ↔ EdgeOf m x y ∨ (k = x ∧ v = y) := by
  rcases hlk : List.lookup k m with _ | vs
  · simp only [lhs_add, hlk]
    constructor
    · rintro ⟨kv, hkv, hx, hy⟩
      rcases List.mem_append.1 hkv with hkv2 | hkv2
      · exact Or.inl ⟨kv, hkv2, hx, hy⟩
      · simp at hkv2
        rw [hkv2] at hx hy
        simp at hx hy
        exact Or.inr ⟨hx, hy.symm⟩
    · rintro (⟨kv, hkv, hx, hy⟩ | ⟨hkx, hvy⟩)
      · exact ⟨kv, List.mem_append.2 (Or.inl hkv), hx, hy⟩
      · refine ⟨(k, [v]), List.mem_append.2 (Or.inr (by simp)), hkx, ?_⟩
        simp [hvy.symm]
  · have hkvs : (k, vs) ∈ m := lookup_mem _ _ _ hlk
    simp only [lhs_add, hlk]
    constructor
    · rintro ⟨kv, hkv, hx, hy⟩
      obtain ⟨kv0, hkv0, heq⟩ := List.mem_map.1 hkv
      by_cases hk0 : kv0.1 = k
      · rw [if_pos hk0] at heq
        rw [← heq] at hx hy
        simp at hx hy
        rcases hy with hy2 | hy2
        · exact Or.inl ⟨(k, vs), hkvs, hx, hy2⟩
        · exact Or.inr ⟨hx, hy2.symm⟩
      · rw [if_neg hk0] at heq
        rw [← heq] at hx hy
        exact Or.inl ⟨kv0, hkv0, hx, hy⟩
    · rintro (⟨kv0, hkv0, hx, hy⟩ | ⟨hkx, hvy⟩)
      · by_cases hk0 : kv0.1 = k
        · have hv0 : kv0.2 = vs := by
            apply nodup_entry_eq m k kv0.2 vs hnd ?_ hkvs
            rw [← hk0]
            simpa using hkv0
          refine ⟨(k, vs ++ [v]), List.mem_map.2 ⟨kv0, hkv0, by rw [if_pos hk0]⟩, ?_, ?_⟩
          · rw [← hx, hk0]
          · show y ∈ vs ++ [v]
            exact List.mem_append.2 (Or.inl (hv0 ▸ hy))
        · refine ⟨kv0, List.mem_map.2 ⟨kv0, hkv0, by rw [if_neg hk0]⟩, hx, hy⟩
      · refine ⟨(k, vs ++ [v]), List.mem_map.2 ⟨(k, vs), hkvs, by simp⟩, hkx, ?_⟩
        rw [← hvy]
        simp

theorem edge_build (rels : List (PluginExpr PluginIndex)) (x y : PluginIndex) :
    ∀ acc : List (PluginIndex × List PluginIndex), (acc.map Prod.fst).Nodup →
      (EdgeOf (rels.foldl (fun m e => lhs_add m e.left_operand e.right_operand) acc) x y
        ↔ EdgeOf acc x y ∨ HasEdge rels x y) := by
  induction rels with
  | nil =>
      intro acc _
      simp [HasEdge]
  | cons e es ih =>
      intro acc hnd
      rw [List.foldl_cons, ih _ (keys_nodup_lhs_add _ _ _ hnd), edge_lhs_add _ _ _ _ _ hnd]
      have hcons : HasEdge (e :: es) x y
          ↔ (e.left_operand = x ∧ e.right_operand = y) ∨ HasEdge es x y := by
        simp only [HasEdge, List.mem_cons]
        constructor
        · rintro ⟨e2, (rfl | he2), hprop⟩
          · exact Or.inl hprop
          · exact Or.inr ⟨e2, he2, hprop⟩
        · rintro (hprop | ⟨e2, he2, hprop⟩)
          · exact ⟨e, Or.inl rfl, hprop⟩
          · exact ⟨e2, Or.inr he2, hprop⟩
      rw [hcons]
      tauto

theorem edge_build_lhs_iff (rels : List (PluginExpr PluginIndex)) (x y : PluginIndex) :
    EdgeOf (build_lhs rels) x y ↔ HasEdge rels x y := by
  rw [build_lhs, edge_build rels x y [] (by simp)]
  have : ¬ EdgeOf [] x y := by
    rintro ⟨kv, hkv, _⟩
    simp at hkv
  tauto

/-- Claim C1: for every well-formed acyclic batch, generate_sequence is
claimed to return each mentioned identity exactly once, also when an
identity occurs both on a bare unconstrained line and inside a relation.
The code violates the claim: evaluating the pipeline on the batch of a bare
line naming a plus the directive a before b returns the order a, a, b, in
which a occurs twice (once from the elimination loop, once again from the
left-behind set, which is seeded with the bare left operands but never
checked against the already emitted items). -/
theorem c1_duplicate_eval :
    generate_sequence hzero c1_batch = .ok [idx_a, idx_a, idx_b]
      ∧ List.count idx_a [idx_a, idx_a, idx_b] = 2 := ⟨rfl, by decide⟩

/-- Claim C2: whenever the merged edge set contains a cycle, the run aborts
with the ordering error carrying the unresolved residual maps, and no
sequence is returned. -/
theorem c2_cycle_error (h : PluginIndex → Int) (exprs : List (PluginExpr PluginIndex))
    (hcyc : HasCycleIn (merged_relations h exprs)) :
    ∃ err, generate_sequence h exprs = .error err := by
  cases hg : generate_sequence h exprs with
  | error err => exact ⟨err, rfl⟩
  | ok l =>
      exfalso
      rw [generate_sequence, generate_execution_order] at hg
      cases hk : kahn h (build_lhs (merged_relations h exprs))
          (build_rhs (merged_relations h exprs)) [] with
      | error err =>
          rw [hk] at hg
          simp at hg
      | ok order =>
          rw [kahn] at hk
          have hnc := kahn_fuel_ok_no_cycle h (build_lhs (merged_relations h exprs)).length
            (build_lhs (merged_relations h exprs)) (build_rhs (merged_relations h exprs))
            [] order le_rfl (keys_nodup_build_lhs _) (models_build _) hk
          apply hnc
          obtain ⟨x, p, hch, hcl⟩ := hcyc
          refine ⟨x, p, ?_, ?_⟩
          · exact List.Chain.imp
              (fun a b hab => (edge_build_lhs_iff (merged_relations h exprs) a b).2 hab) hch
          · exact (edge_build_lhs_iff (merged_relations h exprs) _ _).2 hcl

/-- Witness for C2 at the concrete cycle a before b, b before a. -/
theorem c2_witness :
    HasCycleIn (merged_relations hzero c2_batch)
      ∧ ∃ err, generate_sequence hzero c2_batch = .error err := by
  have hcyc : HasCycleIn (merged_relations hzero c2_batch) := by
    refine ⟨idx_a, [idx_b], ?_, ?_⟩
    · rw [List.chain_cons]
      exact ⟨⟨⟨idx_a, idx_b, some special_rel⟩, by decide, rfl, rfl⟩, List.Chain.nil⟩
    · exact ⟨⟨idx_b, idx_a, some special_rel⟩, by decide, rfl, rfl⟩
  exact ⟨hcyc, c2_cycle_error hzero c2_batch hcyc⟩

/-- Counterexample to claim C3 as stated: the output sequence is not
independent of the process hash function.  On the batch of two bare lines
naming a and b, a hash placing a below b yields the order a, b while a hash
placing b below a yields b, a. -/
theorem c3_counterexample :
    generate_sequence c3_h1 c3_batch = .ok [idx_a, idx_b]
      ∧ generate_sequence c3_h2 c3_batch = .ok [idx_b, idx_a]
      ∧ ([idx_a, idx_b] : List PluginIndex) ≠ [idx_b, idx_a] :=
  ⟨rfl, rfl, by decide⟩

/-- Claim C3 (amended): for a fixed hash function the resolver is a pure
function of the input, but across hash functions only the set of returned
identities is preserved: any two successful runs on the same batch contain
exactly the same identities, while their order (the placement of
unconstrained items in particular) may depend on the hash. -/
theorem c3_same_set (h1 h2 : PluginIndex → Int) (exprs : List (PluginExpr PluginIndex))
    (l1 l2 : List PluginIndex) (h1ok : generate_sequence h1 exprs = .ok l1)
    (h2ok : generate_sequence h2 exprs = .ok l2) :
    ∀ x, x ∈ l1 ↔ x ∈ l2 := by
  intro x
  rw [generate_sequence_ok_mem h1 exprs l1 h1ok x, generate_sequence_ok_mem h2 exprs l2 h2ok x]

/-- Witness for C3 (amended) at the two concrete hash functions of the
counterexample: both runs succeed and their outputs carry the same set of
identities. -/
theorem c3_witness :
    generate_sequence c3_h1 c3_batch = .ok [idx_a, idx_b]
      ∧ generate_sequence c3_h2 c3_batch = .ok [idx_b, idx_a]
      ∧ ∀ x, x ∈ ([idx_a, idx_b] : List PluginIndex)
          ↔ x ∈ ([idx_b, idx_a] : List PluginIndex) :=
  ⟨rfl, rfl, c3_same_set c3_h1 c3_h2 c3_batch _ _ rfl rfl⟩

theorem py_sort_pair {A : Type} (stays : A → A → Bool) (x y : A) :
    py_sort stays [x, y] = if stays y x then [y, x] else [x, y] := rfl

/-- Claim C4 (Scenario A): the two directives loader_a before loader_b with
degree 0 and loader_c before loader_b with degree 1 in namespace pre_load
qualify to the Scenario A batch, and under every process hash function the
resulting order is loader_c, loader_a, loader_b: within the right-anchored
group of loader_b the higher degree is scheduled earlier. -/
theorem c4_scenario_a (h : PluginIndex → Int) :
    replace_with_plugin_index "pre_load" c4_raw = .ok c4_batch
      ∧ generate_sequence h c4_batch = .ok [idx_lc, idx_la, idx_lb] := by
  refine ⟨rfl, ?_⟩
  have hsr : sort_right h c4_batch = [c4_e2, c4_e1] := by
    show py_sort (fun y x => lexLt (h x.right_operand, rel_degree x)
      (h y.right_operand, rel_degree y)) [c4_e1, c4_e2] = [c4_e2, c4_e1]
    rw [py_sort_pair]
    rw [if_pos]
    show lexLt (h idx_lb, (0 : Int)) (h idx_lb, (1 : Int)) = true
    simp [lexLt]
  by_cases hca : h idx_lc < h idx_la
  · have hsl : sort_left h c4_batch = [c4_e2, c4_e1] := by
      show py_sort (fun y x => lexLt (h y.left_operand, rel_degree y)
        (h x.left_operand, rel_degree x)) [c4_e1, c4_e2] = [c4_e2, c4_e1]
      rw [py_sort_pair]
      rw [if_pos]
      show lexLt (h idx_lc, (1 : Int)) (h idx_la, (0 : Int)) = true
      simp [lexLt, hca]
    have hmerge : merged_relations h c4_batch
        = [⟨idx_lc, idx_lb, some special_rel⟩, ⟨idx_la, idx_lb, some special_rel⟩,
           ⟨idx_lc, idx_la, some special_rel⟩, ⟨idx_la, idx_lb, some special_rel⟩] := by
      rw [merged_relations,
        show transform_to_left_rel (remove_irrelevant_exprs c4_batch).1 = c4_batch from rfl,
        relations_of, hsl, hsr]
      rfl
    rw [generate_sequence, hmerge]
    rfl
  · have hsl : sort_left h c4_batch = [c4_e1, c4_e2] := by
      show py_sort (fun y x => lexLt (h y.left_operand, rel_degree y)
        (h x.left_operand, rel_degree x)) [c4_e1, c4_e2] = [c4_e1, c4_e2]
      rw [py_sort_pair]
      rw [if_neg]
      show ¬ lexLt (h idx_lc, (1 : Int)) (h idx_la, (0 : Int)) = true
      simp [lexLt, hca]
    have hmerge : merged_relations h c4_batch
        = [⟨idx_la, idx_lb, some special_rel⟩, ⟨idx_lc, idx_lb, some special_rel⟩,
           ⟨idx_lc, idx_la, some special_rel⟩, ⟨idx_la, idx_lb, some special_rel⟩] := by
      rw [merged_relations,
        show transform_to_left_rel (remove_irrelevant_exprs c4_batch).1 = c4_batch from rfl,
        relations_of, hsl, hsr]
      rfl
    rw [generate_sequence, hmerge]
    rfl

/-- Claim C5 (operator symmetry): a batch containing the forward directive
a before b with degree d and the same batch with it replaced by the reverse
directive written b after a with the same degree produce identical
execution orders, under every hash function. -/
theorem c5_operator_symmetry (h : PluginIndex → Int)
    (pre post : List (PluginExpr PluginIndex)) (a b : PluginIndex) (d : Int) :
    generate_sequence h (pre ++ ⟨a, b, some ⟨true, d⟩⟩ :: post)
      = generate_sequence h (pre ++ ⟨b, a, some ⟨false, d⟩⟩ :: post) := by
  have hfa : (pre ++ (⟨a, b, some ⟨true, d⟩⟩ : PluginExpr PluginIndex) :: post).filter
        (fun e => !e.relation.isNone)
      = pre.filter (fun e => !e.relation.isNone)
        ++ (⟨a, b, some ⟨true, d⟩⟩ : PluginExpr PluginIndex)
          :: post.filter (fun e => !e.relation.isNone) := by
    rw [List.filter_append, List.filter_cons]
    simp
  have hfb : (pre ++ (⟨b, a, some ⟨false, d⟩⟩ : PluginExpr PluginIndex) :: post).filter
        (fun e => !e.relation.isNone)
      = pre.filter (fun e => !e.relation.isNone)
        ++ (⟨b, a, some ⟨false, d⟩⟩ : PluginExpr PluginIndex)
          :: post.filter (fun e => !e.relation.isNone) := by
    rw [List.filter_append, List.filter_cons]
    simp
  have hwork : transform_to_left_rel
        ((remove_irrelevant_exprs (pre ++ ⟨a, b, some ⟨true, d⟩⟩ :: post)).1)
      = transform_to_left_rel
        ((remove_irrelevant_exprs (pre ++ ⟨b, a, some ⟨false, d⟩⟩ :: post)).1) := by
    rw [remove_eq_partition, remove_eq_partition]
    show transform_to_left_rel ((pre ++ ⟨a, b, some ⟨true, d⟩⟩ :: post).filter
      (fun e => !e.relation.isNone)) = _
    rw [hfa, hfb]
    simp only [transform_to_left_rel, List.map_append, List.map_cons]
    simp
  have hirr : (remove_irrelevant_exprs (pre ++ ⟨a, b, some ⟨true, d⟩⟩ :: post)).2
      = (remove_irrelevant_exprs (pre ++ ⟨b, a, some ⟨false, d⟩⟩ :: post)).2 := by
    rw [remove_eq_partition, remove_eq_partition]
    show (pre ++ ⟨a, b, some ⟨true, d⟩⟩ :: post).filter (fun e => e.relation.isNone) = _
    rw [List.filter_append, List.filter_cons, List.filter_append, List.filter_cons]
    simp
  rw [generate_sequence, generate_sequence, merged_relations, merged_relations, hwork, hirr]

/-- Claim C6: for a namespace text with a lexical or syntax diagnostic the
spec says analyze records it and continues; the code instead evaluates the
unbound name theme inside the archive method and aborts with NameError.
This theorem evaluates the code on any flagged parse outcome. -/
theorem c6_name_error (theme : String) (pr : ParseResult) (st : ParserState)
    (herr : pr.lex_error = true ∨ pr.yacc_error = true) :
    analyze theme pr st = .error name_error_msg := by
  rcases herr with herr | herr
  · simp [analyze, archive_error, herr, Bind.bind, Except.bind]
  · by_cases hlex : pr.lex_error
    · simp [analyze, archive_error, hlex, Bind.bind, Except.bind]
    · simp [analyze, archive_error, hlex, herr, Bind.bind, Except.bind]

/-- Witness for C6 at a concrete flagged parse outcome on theme t. -/
theorem c6_witness :
    (c6_pr.lex_error = true ∨ c6_pr.yacc_error = true)
      ∧ analyze "t" c6_pr st0 = .error name_error_msg :=
  ⟨Or.inl rfl, c6_name_error "t" c6_pr st0 (Or.inl rfl)⟩

theorem gtp_error_of_bad (theme s : String) (hs : BadOperand s) :
    get_theme_plugin theme s = .error ("Operand Error: " ++ s) := by
  rw [get_theme_plugin, if_neg hs.1]
  have hlen := hs.2
  rcases hsplit : split_dots s.data with _ | ⟨x, l⟩
  · rfl
  · rcases l with _ | ⟨y, l2⟩
    · exfalso
      rw [hsplit] at hlen
      simp at hlen
    · rcases l2 with _ | ⟨z, l3⟩
      · exfalso
        rw [hsplit] at hlen
        simp at hlen
      · rfl

theorem replace_error_of_bad (theme : String) :
    ∀ exprs : List (PluginExpr String),
      (∃ e ∈ exprs, BadOperand e.left_operand ∨ BadOperand e.right_operand) →
      ∃ msg, replace_with_plugin_index theme exprs = .error msg := by
  intro exprs
  induction exprs with
  | nil =>
      rintro ⟨e, he, _⟩
      simp at he
  | cons e rest ih =>
      rintro ⟨e2, he2, hbad⟩
      rcases List.mem_cons.1 he2 with rfl | he2b
      · rcases hbad with hb | hb
        · refine ⟨"Operand Error: " ++ e2.left_operand, ?_⟩
          simp [replace_with_plugin_index, gtp_error_of_bad theme _ hb,
            Bind.bind, Except.bind]
        · rcases hl : get_theme_plugin theme e2.left_operand with msg | v
          · exact ⟨msg, by simp [replace_with_plugin_index, hl, Bind.bind, Except.bind]⟩
          · refine ⟨"Operand Error: " ++ e2.right_operand, ?_⟩
            simp [replace_with_plugin_index, hl, gtp_error_of_bad theme _ hb,
              Bind.bind, Except.bind]
      · rcases hl : get_theme_plugin theme e.left_operand with msg | v
        · exact ⟨msg, by simp [replace_with_plugin_index, hl, Bind.bind, Except.bind]⟩
        · rcases hr : get_theme_plugin theme e.right_operand with msg | w
          · exact ⟨msg, by simp [replace_with_plugin_index, hl, hr, Bind.bind, Except.bind]⟩
          · obtain ⟨msg, hmsg⟩ := ih ⟨e2, he2b, hbad⟩
            exact ⟨msg, by simp [replace_with_plugin_index, hl, hr, hmsg,
              Bind.bind, Except.bind]⟩

/-- Counterexample to claim C7 as stated: qualification of a namespace
holding the good expression x before y and the bad expression with operand
a.b.c does not drop just the bad expression: the whole analyze call raises
the operand SyntaxError, and the good expression is not stored either. -/
theorem c7_counterexample :
    analyze "t" c7_pr st0 = .error ("Operand Error: " ++ "a.b.c") := rfl

/-- Claim C7 (amended): an operand with more than one dot makes the
qualification raise the operand SyntaxError for the whole namespace: the
analyze call aborts with the error and stores nothing, rather than dropping
only the offending expression. -/
theorem c7_operand_error_aborts (theme : String) (exprs : List (PluginExpr String))
    (st : ParserState)
    (hbad : ∃ e ∈ exprs, BadOperand e.left_operand ∨ BadOperand e.right_operand) :
    ∃ msg, analyze theme ⟨exprs, false, false⟩ st = .error msg := by
  obtain ⟨msg, hmsg⟩ := replace_error_of_bad theme exprs hbad
  refine ⟨msg, ?_⟩
  simp [analyze, archive_error, hmsg, Bind.bind, Except.bind]

/-- Witness for C7 (amended) at the concrete bad operand a.b.c. -/
theorem c7_witness :
    (∃ e ∈ c7_pr.exprs, BadOperand e.left_operand ∨ BadOperand e.right_operand)
      ∧ ∃ msg, analyze "t" ⟨c7_pr.exprs, false, false⟩ st0 = .error msg := by
  have hbad : ∃ e ∈ c7_pr.exprs, BadOperand e.left_operand ∨ BadOperand e.right_operand := by
    refine ⟨c7_bad, by decide, Or.inl ?_⟩
    constructor
    · decide
    · decide
  exact ⟨hbad, c7_operand_error_aborts "t" c7_pr.exprs st0 hbad⟩

/-- Claim C8: a sequence returned by generate_sequence never contains the
HEAD or TAIL sentinel identity, for every input batch and hash function,
also when directives with an omitted operand put the sentinels into the
edge set. -/
theorem c8_no_sentinels (h : PluginIndex → Int) (exprs : List (PluginExpr PluginIndex))
    (l : List PluginIndex) (hok : generate_sequence h exprs = .ok l) :
    ∀ i ∈ l, is_sentinel i = false := by
  intro i hi
  exact ((generate_sequence_ok_mem h exprs l hok i).1 hi).1

/-- Witness for C8 on the batch of the single directive a with omitted
right operand, whose edge set contains the TAIL sentinel. -/
theorem c8_witness :
    generate_sequence hzero c8_batch = .ok [idx_a]
      ∧ ∀ i ∈ ([idx_a] : List PluginIndex), is_sentinel i = false :=
  ⟨rfl, c8_no_sentinels hzero c8_batch [idx_a] rfl⟩

/-- Claim C9: after the normalization steps of generate_sequence (removal
of the unconstrained expressions, then the direction transformation) every
expression of the working list carries a relation in forward form: the
direction flag is set and the degree is kept. -/
theorem c9_forward_form (exprs : List (PluginExpr PluginIndex))
    (e : PluginExpr PluginIndex)
    (he : e ∈ transform_to_left_rel (remove_irrelevant_exprs exprs).1) :
    ∃ d, e.relation = some ⟨true, d⟩ := by
  rw [remove_eq_partition] at he
  simp only [transform_to_left_rel] at he
  obtain ⟨e0, he0, rfl⟩ := List.mem_map.1 he
  have hs : e0.relation.isNone = false := by
    have := (List.mem_filter.1 he0).2
    simpa using this
  rcases hr : e0.relation with _ | r
  · rw [hr] at hs
    simp at hs
  · by_cases hl : r.is_left_rel
    · refine ⟨r.degree, ?_⟩
      rcases r with ⟨ilr, dg⟩
      simp at hl
      subst hl
      simp [hr]
    · refine ⟨r.degree, ?_⟩
      simp [hr, hl]

/-- Witness for C9 on a batch holding one reverse-direction expression. -/
theorem c9_witness :
    ((⟨idx_a, idx_b, some ⟨true, 5⟩⟩ : PluginExpr PluginIndex)
        ∈ transform_to_left_rel (remove_irrelevant_exprs c9_batch).1)
      ∧ ∃ d, (⟨idx_a, idx_b, some ⟨true, 5⟩⟩ : PluginExpr PluginIndex).relation
          = some ⟨true, d⟩ := by
  have hm : (⟨idx_a, idx_b, some ⟨true, 5⟩⟩ : PluginExpr PluginIndex)
      ∈ transform_to_left_rel (remove_irrelevant_exprs c9_batch).1 := by decide
  exact ⟨hm, c9_forward_form c9_batch _ hm⟩

theorem lookup_cons_hit {B : Type} (k : String) (v : B) (rest : List (String × B)) :
    List.lookup k ((k, v) :: rest) = some v := by
  simp [List.lookup]

theorem lookup_cons_miss {B : Type} (k a : String) (b : B) (rest : List (String × B))
    (hne : k ≠ a) : List.lookup k ((a, b) :: rest) = List.lookup k rest := by
  have hbk : (k == a) = false := by
    simp
    exact hne
  simp [List.lookup, hbk]

theorem dict_update_lookup_self {B : Type} (k : String) (v : B) :
    ∀ m : List (String × B), k ∈ m.map Prod.fst →
      List.lookup k (m.map fun kv => if kv.1 = k then (k, v) else kv) = some v := by
  intro m
  induction m with
  | nil => simp
  | cons kv rest ih =>
      intro hk
      rcases kv with ⟨a, b⟩
      rw [List.map_cons]
      by_cases ha : a = k
      · rw [show (if ((a, b) : String × B).1 = k then (k, v) else (a, b)) = (k, v) from
          if_pos ha]
        exact lookup_cons_hit k v _
      · rw [show (if ((a, b) : String × B).1 = k then (k, v) else (a, b)) = (a, b) from
          if_neg ha]
        rw [lookup_cons_miss k a b _ (fun he => ha he.symm)]
        apply ih
        rcases List.mem_map.1 hk with ⟨kv2, hkv2, hfst⟩
        rcases List.mem_cons.1 hkv2 with rfl | hkv2b
        · exact absurd hfst ha
        · exact List.mem_map.2 ⟨kv2, hkv2b, hfst⟩

theorem dict_update_lookup_other {B : Type} (k t : String) (v : B) (hne : t ≠ k) :
    ∀ m : List (String × B),
      List.lookup t (m.map fun kv => if kv.1 = k then (k, v) else kv)
        = List.lookup t m := by
  intro m
  induction m with
  | nil => simp
  | cons kv rest ih =>
      rcases kv with ⟨a, b⟩
      rw [List.map_cons]
      by_cases ha : a = k
      · rw [show (if ((a, b) : String × B).1 = k then (k, v) else (a, b)) = (k, v) from
          if_pos ha]
        rw [lookup_cons_miss t k v _ hne]
        rw [lookup_cons_miss t a b _ (by rw [ha]; exact hne)]
        exact ih
      · rw [show (if ((a, b) : String × B).1 = k then (k, v) else (a, b)) = (a, b) from
          if_neg ha]
        by_cases hta : t = a
        · subst hta
          rw [lookup_cons_hit, lookup_cons_hit]
        · rw [lookup_cons_miss t a b _ hta, lookup_cons_miss t a b _ hta]
          exact ih

theorem lookup_append_right {B : Type} (k : String) (v : B) :
    ∀ m : List (String × B), k ∉ m.map Prod.fst →
      List.lookup k (m ++ [(k, v)]) = some v := by
  intro m
  induction m with
  | nil =>
      intro _
      exact lookup_cons_hit k v []
  | cons kv rest ih =>
      intro hk
      rcases kv with ⟨a, b⟩
      have hka : k ≠ a := by
        intro hc
        exact hk (List.mem_map.2 ⟨(a, b), List.mem_cons_self _ _, hc.symm⟩)
      rw [List.cons_append, lookup_cons_miss k a b _ hka]
      apply ih
      intro hc
      apply hk
      rcases List.mem_map.1 hc with ⟨kv2, hkv2, hfst⟩
      exact List.mem_map.2 ⟨kv2, List.mem_cons_of_mem _ hkv2, hfst⟩

theorem lookup_append_other {B : Type} (k t : String) (v : B) (hne : t ≠ k) :
    ∀ m : List (String × B),
      List.lookup t (m ++ [(k, v)]) = List.lookup t m := by
  intro m
  induction m with
  | nil =>
      rw [List.nil_append]
      rw [lookup_cons_miss t k v [] hne]
  | cons kv rest ih =>
      rcases kv with ⟨a, b⟩
      by_cases hta : t = a
      · subst hta
        rw [List.cons_append, lookup_cons_hit, lookup_cons_hit]
      · rw [List.cons_append, lookup_cons_miss t a b _ hta, lookup_cons_miss t a b _ hta]
        exact ih

theorem dict_set_lookup_self {B : Type} (m : List (String × B)) (k : String) (v : B) :
    List.lookup k (dict_set m k v) = some v := by
  rw [dict_set]
  by_cases hk : k ∈ m.map Prod.fst
  · rw [if_pos hk]
    exact dict_update_lookup_self k v m hk
  · rw [if_neg hk]
    exact lookup_append_right k v m hk

theorem dict_set_lookup_other {B : Type} (m : List (String × B)) (k t : String) (v : B)
    (hne : t ≠ k) : List.lookup t (dict_set m k v) = List.lookup t m := by
  rw [dict_set]
  by_cases hk : k ∈ m.map Prod.fst
  · rw [if_pos hk]
    exact dict_update_lookup_other k t v hne m
  · rw [if_neg hk]
    exact lookup_append_other k t v hne m

/-- Claim C10: analyzing the same namespace twice stores the second call
qualification result under the namespace key, discarding the first call
expressions, and leaves the stored list of every other namespace
unchanged. -/
theorem c10_reanalyze_replaces (theme : String) (pr1 pr2 : ParseResult)
    (sta st1 st2 : ParserState)
    (h1 : analyze theme pr1 sta = .ok st1) (h2 : analyze theme pr2 st1 = .ok st2) :
    ∃ ps2, replace_with_plugin_index theme pr2.exprs = .ok ps2
      ∧ List.lookup theme st2.theme_plugin_expr_mapping = some ps2
      ∧ ∀ t2, t2 ≠ theme →
          List.lookup t2 st2.theme_plugin_expr_mapping
            = List.lookup t2 st1.theme_plugin_expr_mapping := by
  rcases ha : archive_error pr2.lex_error pr2.yacc_error st1.error with msg | err
  · simp [analyze, ha, Bind.bind, Except.bind] at h2
  · rcases hrep : replace_with_plugin_index theme pr2.exprs with msg | ps2
    · simp [analyze, ha, hrep, Bind.bind, Except.bind] at h2
    · have hst2 : st2
          = ⟨err, dict_set st1.theme_plugin_expr_mapping theme ps2⟩ := by
        have h2b := h2
        simp [analyze, ha, hrep, Bind.bind, Except.bind] at h2b
        exact h2b.symm
      refine ⟨ps2, rfl, ?_, ?_⟩
      · rw [hst2]
        exact dict_set_lookup_self _ _ _
      · intro t2 ht2
        rw [hst2]
        exact dict_set_lookup_other _ _ _ _ ht2

/-- Witness for C10: two concrete analyze calls on theme t; the stored list
of theme t after the second call is the qualification of the second parse
outcome. -/
theorem c10_witness :
    analyze "t" c10_pr1 st0
        = .ok ⟨false, [("t",
            [⟨⟨some "t", "a"⟩, ⟨some "t", "b"⟩, some ⟨true, 0⟩⟩])]⟩
      ∧ analyze "t" c10_pr2
          ⟨false, [("t", [⟨⟨some "t", "a"⟩, ⟨some "t", "b"⟩, some ⟨true, 0⟩⟩])]⟩
        = .ok ⟨false, [("t",
            [⟨⟨some "t", "c"⟩, ⟨some "t", "d"⟩, some ⟨true, 2⟩⟩])]⟩
      ∧ ∃ ps2, replace_with_plugin_index "t" c10_pr2.exprs = .ok ps2
          ∧ List.lookup "t"
              [("t", [(⟨⟨some "t", "c"⟩, ⟨some "t", "d"⟩, some ⟨true, 2⟩⟩ :
                PluginExpr PluginIndex)])] = some ps2
          ∧ ∀ t2, t2 ≠ "t" →
              List.lookup t2
                [("t", [(⟨⟨some "t", "c"⟩, ⟨some "t", "d"⟩, some ⟨true, 2⟩⟩ :
                  PluginExpr PluginIndex)])]
              = List.lookup t2
                [("t", [(⟨⟨some "t", "a"⟩, ⟨some "t", "b"⟩, some ⟨true, 0⟩⟩ :
                  PluginExpr PluginIndex)])] :=
  ⟨rfl, rfl, c10_reanalyze_replaces "t" c10_pr1 c10_pr2 st0 _ _ rfl rfl⟩

theorem yield_group_fuel_adequate (get : PluginExpr PluginIndex → PluginIndex) :
    ∀ (f1 f2 : Nat) (l : List (PluginExpr PluginIndex)), l.length ≤ f1 → l.length ≤ f2 →
      yield_group_fuel get f1 l = yield_group_fuel get f2 l := by
  intro f1
  induction f1 with
  | zero =>
      intro f2 l h1 _
      have : l = [] := by
        cases l with
        | nil => rfl
        | cons x xs => simp at h1
      subst this
      cases f2 <;> rfl
  | succ n ih =>
      intro f2 l h1 h2
      cases l with
      | nil => cases f2 <;> rfl
      | cons x xs =>
          cases f2 with
          | zero => simp at h2
          | succ m =>
              simp only [yield_group_fuel]
              rw [ih m (xs.dropWhile fun e => get e == get x)
                (le_trans ((List.dropWhile_sublist _).length_le) (by simpa using h1))
                (le_trans ((List.dropWhile_sublist _).length_le) (by simpa using h2))]

theorem kahn_fuel_adequate (h : PluginIndex → Int) :
    ∀ (f1 f2 : Nat) (lhs : List (PluginIndex × List PluginIndex))
      (rhs : List (PluginIndex × Int)) (acc : List PluginIndex),
      lhs.length ≤ f1 → lhs.length ≤ f2 →
      kahn_fuel h f1 lhs rhs acc = kahn_fuel h f2 lhs rhs acc := by
  intro f1
  induction f1 with
  | zero =>
      intro f2 lhs rhs acc h1 _
      have : lhs = [] := by
        cases lhs with
        | nil => rfl
        | cons kv rest => simp at h1
      subst this
      cases f2 <;> rfl
  | succ n ih =>
      intro f2 lhs rhs acc h1 h2
      cases lhs with
      | nil => cases f2 <;> rfl
      | cons kv rest =>
          cases f2 with
          | zero => simp at h2
          | succ m =>
              simp only [kahn_fuel]
              cases hmn : py_min h (((kv :: rest).map Prod.fst).filter fun k =>
                  decide (k ∉ rhs.map Prod.fst)) with
              | none => rfl
              | some item =>
                  have hitem : item ∈ (kv :: rest).map Prod.fst :=
                    (List.mem_filter.1 (py_min_mem _ _ _ hmn)).1
                  obtain ⟨kv2, hkv2, hfst⟩ := List.mem_map.1 hitem
                  have hlt : ((kv :: rest).filter fun kv2 =>
                      decide (kv2.1 ≠ item)).length < (kv :: rest).length := by
                    rw [List.length_filter_lt_length_iff_exists]
                    exact ⟨kv2, hkv2, by simp [hfst]⟩
                  apply ih
                  · simp only [List.length_cons] at h1 hlt ⊢
                    omega
                  · simp only [List.length_cons] at h2 hlt ⊢
                    omega
